import Mathlib

/-!
Verification development for the conversation-state engine and protocol
adapter of an OpenAI-compatible chat CLI.

The definitions below are a shallow embedding of the TypeScript sources:

* `packages/core/src/core/conversationManager.ts` — history store, curation,
  consolidation, compression (`ConversationManager`);
* `packages/core/src/core/openaiCompatibleGenerator.ts` — token estimation,
  budget optimization, wire translation and the streaming decoder
  (`OpenAICompatibleGenerator`).

Conventions used throughout the embedding:

* TypeScript optional fields become `Option` fields; JavaScript truthiness
  of a string (`s` is falsy iff missing or `""`) is modelled explicitly.
* JavaScript numbers are modelled as `Nat`/`Int`; the float fractions that
  appear in the sources (`0.1`, `0.3`, thresholds) are modelled as exact
  rationals (`ℚ`), and `Math.ceil(x*0.1)`/`Math.ceil(x*0.3)` as exact
  ceiling divisions.  The sources use these only as crude heuristics.
* The JavaScript builtins `JSON.parse` and `JSON.stringify(...).length` are
  environment primitives, not code of this repository; they are passed in
  as explicit function parameters (`parse : String → Option JsonV`,
  `strLen : Content → Nat`), so every theorem quantifies over them.
* Methods that mutate `this.history` are modelled as state-passing
  functions that return the resulting stored history; a method that throws
  before its assignment to `this.history` returns the unchanged input
  history together with an error value.
* The `while` loop of `extractCuratedHistory` does not advance its index
  when it meets a turn whose role is neither `user` nor `model` (the inner
  run-collecting loop collects nothing); the TypeScript therefore loops
  forever on such input.  The embedding returns `none` for exactly this
  divergent case and is driven by fuel so that it stays kernel-reducible.
-/

namespace GeminiSpec

/-! ## Canonical content model (`Content`/`Part` of `@google/genai` as used here) -/

/-- Minimal JSON value universe, the codomain of the abstracted
`JSON.parse`.  Only the structure matters to the claims. -/
inductive JsonV where
  | null : JsonV
  | bool (b : Bool) : JsonV
  | num (n : Int) : JsonV
  | str (s : String) : JsonV
  | arr (elems : List JsonV) : JsonV
  | obj (fields : List (String × JsonV)) : JsonV

/-- A Gemini-style function call payload (`FunctionCall`): name, parsed
arguments and an id. -/
structure FunctionCallV where
  name : String
  args : JsonV
  id : String

/-- One fragment of a turn (canonical `Part`).  Fields mirror the optional
properties the sources inspect: `text`, `thought`, `functionCall`,
`functionResponse`.  A JavaScript `{}` part is the part with all fields
absent. -/
structure Part where
  text : Option String := none
  thought : Option Bool := none
  functionCall : Option FunctionCallV := none
  functionResponse : Option JsonV := none

/-- One conversation turn (canonical `Content`).  Both `role` and `parts`
are optional in the wire schema, and the sources test them for
`undefined`. -/
structure Content where
  role : Option String := none
  parts : Option (List Part) := none

/-- Convenience: a pure text part. -/
def textPart (s : String) : Part := { text := some s }

/-- Convenience: a turn with the given role and a single text fragment. -/
def textContent (role s : String) : Content :=
  { role := some role, parts := some [textPart s] }

/-! ## ConversationManager: validity, curation, history operations -/

/-- Embeds `ConversationManager.isValidContent`: a turn is invalid when its
part list is missing or empty, when some part is the empty object, or when
some part has non-thought empty text (`!part.thought && part.text === ''`;
`!part.thought` is JavaScript truthiness, so `thought` absent or `false`
counts). -/
def isValidContent (content : Content) : Bool :=
  match content.parts with
  | none => false
  | some parts =>
    if parts.isEmpty then false
    else parts.all fun part =>
      let emptyObject :=
        part.text.isNone && part.thought.isNone &&
        part.functionCall.isNone && part.functionResponse.isNone
      let emptyText := !(part.thought = some true) && part.text = some ""
      !emptyObject && !emptyText

/-- Embeds `ConversationManager.isTextContent`: a model turn whose first
part carries a non-empty text string. -/
def isTextContent (content : Option Content) : Bool :=
  match content with
  | none => false
  | some c =>
    c.role = some "model" &&
    match c.parts with
    | some (p0 :: _) => match p0.text with
      | some t => t ≠ ""
      | none => false
    | _ => false

/-- Embeds `ConversationManager.isThoughtContent`: a model turn whose first
part has `thought === true`. -/
def isThoughtContent (content : Option Content) : Bool :=
  match content with
  | none => false
  | some c =>
    c.role = some "model" &&
    match c.parts with
    | some (p0 :: _) => p0.thought = some true
    | _ => false

/-- Embeds `ConversationManager.validateHistory`: every turn's role must be
exactly `user` or `model`, else the manager throws a role error. -/
def validateHistory (history : List Content) : Except String Unit :=
  if history.all (fun c => c.role = some "user" || c.role = some "model") then
    .ok ()
  else
    .error "Role must be user or model"

/-- Embeds `ConversationManager.setHistory` (and the constructor path): the
new history is validated and then replaces the stored history. -/
def setHistory (history : List Content) : Except String (List Content) :=
  match validateHistory history with
  | .ok () => .ok history
  | .error e => .error e

/-- Embeds `ConversationManager.addHistory`: the turn is pushed onto the
raw history with no validation at all. -/
def addHistory (stored : List Content) (content : Content) : List Content :=
  stored ++ [content]

/-- Modelled from the spec: `isFunctionResponse` is imported from
`../utils/messageInspectors.js`, which is not among the sources.  The spec
describes it as recognising a tool-result turn (a user-side turn whose
fragments are all tool results), so the model checks that the role is
`user` and every fragment is a `functionResponse` fragment. -/
def isFunctionResponse (c : Content) : Bool :=
  c.role = some "user" &&
  match c.parts with
  | some ps => !ps.isEmpty && ps.all (fun p => p.functionResponse.isSome)
  | none => false


/-- ASCII whitespace, the model of the JavaScript `\\s` class and of the
whitespace trimmed by `String.prototype.trim` (the embedding restricts to
ASCII). -/
def isWsChar (c : Char) : Bool :=
  c = ' ' || c = '\t' || c = '\n' || c = '\r' || c = '\x0b' || c = '\x0c'

/-- Character-level JavaScript `trim`: drop whitespace from both ends. -/
def jsTrimChars (cs : List Char) : List Char :=
  ((cs.dropWhile isWsChar).reverse.dropWhile isWsChar).reverse

/-- JavaScript `String.prototype.trim` on the embedded strings. -/
def jsTrim (s : String) : String := String.mk (jsTrimChars s.data)

/-- One pass of the `extractCuratedHistory` while-loop, driven by fuel so
that the definition is structural.  `acc` is `curatedHistory` built so far;
the input list is the unprocessed suffix of the comprehensive history.

A `user` turn is pushed as-is.  Otherwise the inner loop collects the
maximal run of `model`-role turns; a run that is entirely valid is pushed,
an invalid run is discarded together with the last pushed entry
(`curatedHistory.pop()`).  A head whose role is neither `user` nor `model`
makes the TypeScript loop spin forever (the inner loop collects nothing and
`i` never advances); the embedding returns `none` there.  Each step
consumes at least one input turn, so fuel `length + 1` never runs out on
the reachable paths. -/
def curateFuel : Nat → List Content → List Content → Option (List Content)
  | 0, _, _ => none
  | _ + 1, acc, [] => some acc
  | fuel + 1, acc, c :: rest =>
    if c.role = some "user" then
      curateFuel fuel (acc ++ [c]) rest
    else if c.role = some "model" then
      let run := c :: rest.takeWhile (fun x => x.role = some "model")
      let rest' := rest.dropWhile (fun x => x.role = some "model")
      if run.all isValidContent then
        curateFuel fuel (acc ++ run) rest'
      else
        curateFuel fuel acc.dropLast rest'
    else
      none

/-- Embeds `ConversationManager.extractCuratedHistory`.  `none` models the
divergence of the source loop on a turn whose role is neither `user` nor
`model`. -/
def extractCuratedHistory (comprehensiveHistory : List Content) : Option (List Content) :=
  curateFuel (comprehensiveHistory.length + 1) [] comprehensiveHistory

/-- The claim-side alternation predicate: no two consecutive turns share a
role. -/
def rolesAlternate : List Content → Bool
  | [] => true
  | [_] => true
  | a :: b :: rest => a.role ≠ b.role && rolesAlternate (b :: rest)

/-! ## recordHistory -/

/-- The text-merge of `recordHistory`: append the second turn's first-part
text to the first turn's first part and push the second turn's remaining
parts after it.  Only reached under `isTextContent` guards, which guarantee
the part lists are non-empty. -/
def mergeTextInto (last c : Content) : Content :=
  match last.parts, c.parts with
  | some (p0 :: ps), some (q0 :: qs) =>
    { last with
      parts := some (({ p0 with
        text := some ((p0.text.getD "") ++ (q0.text.getD "")) }) :: (ps ++ qs)) }
  | _, _ => last

/-- The consolidation loop of `recordHistory`: thought turns are skipped;
a text-only model turn following another text-only model turn is merged
into it, otherwise the turn is pushed. -/
def consolidateOutput (outputContents : List Content) : List Content :=
  outputContents.foldl
    (fun acc content =>
      if isThoughtContent (some content) then acc
      else
        match acc.getLast? with
        | some last =>
          if isTextContent (some last) && isTextContent (some content) then
            acc.dropLast ++ [mergeTextInto last content]
          else
            acc ++ [content]
        | none => acc ++ [content])
    []

/-- Embeds `ConversationManager.recordHistory`.  Returns the new stored
history; `none` models divergence of `extractCuratedHistory` on the
automatic-function-calling history. -/
def recordHistory (stored : List Content) (userInput : Content)
    (modelOutput : List Content)
    (automaticFunctionCallingHistory : Option (List Content)) :
    Option (List Content) :=
  let nonThoughtModelOutput :=
    modelOutput.filter (fun c => !isThoughtContent (some c))
  let outputContents : List Content :=
    if nonThoughtModelOutput.length > 0 &&
        nonThoughtModelOutput.all (fun c => c.role.isSome) then
      nonThoughtModelOutput
    else if nonThoughtModelOutput.length = 0 && modelOutput.length > 0 then
      []
    else if !isFunctionResponse userInput then
      [{ role := some "model", parts := some [] }]
    else
      []
  let baseOpt : Option (List Content) :=
    match automaticFunctionCallingHistory with
    | some afc =>
      if afc.length > 0 then
        (extractCuratedHistory afc).map (fun cur => stored ++ cur)
      else
        some (stored ++ [userInput])
    | none => some (stored ++ [userInput])
  match baseOpt with
  | none => none
  | some base =>
    let consolidated := consolidateOutput outputContents
    if consolidated.length > 0 then
      let canMergeWithLastHistory :=
        match automaticFunctionCallingHistory with
        | none => true
        | some afc => afc.length = 0
      if canMergeWithLastHistory &&
          isTextContent base.getLast? &&
          isTextContent consolidated.head? then
        match base.getLast?, consolidated.head? with
        | some last, some first =>
          some ((base.dropLast ++ [mergeTextInto last first]) ++ consolidated.tail)
        | _, _ => some (base ++ consolidated)
      else
        some (base ++ consolidated)
    else
      some base

/-! ## Compression: findIndexAfterFraction, cut-index advance, tryCompress -/

/-- Errors of the compression path. -/
inductive CompressError where
  | badFraction : CompressError
  | badRole : CompressError
  | genFailed : CompressError
  | noSummaryParts : CompressError

/-- The scan loop of `findIndexAfterFraction`: accumulate lengths until the
running total reaches `target`; falling off the end returns the full list
length (`i` counts the consumed prefix). -/
def fifLoop (target : ℚ) : List Nat → ℚ → Nat → Nat
  | [], _, i => i
  | x :: xs, soFar, i =>
    if soFar + (x : ℚ) ≥ target then i else fifLoop target xs (soFar + (x : ℚ)) (i + 1)

/-- Embeds `ConversationManager.findIndexAfterFraction`.  `strLen` stands
for the builtin `JSON.stringify(content).length`. -/
def findIndexAfterFraction (strLen : Content → Nat) (history : List Content)
    (fraction : ℚ) : Except CompressError Nat :=
  if fraction ≤ 0 ∨ fraction ≥ 1 then
    .error .badFraction
  else
    let contentLengths := history.map strLen
    let totalCharacters := contentLengths.sum
    let targetCharacters : ℚ := (totalCharacters : ℚ) * fraction
    .ok (fifLoop targetCharacters contentLengths 0 0)

/-- The post-cut advance of `tryCompress`: skip the leading turns of the
preserved suffix that are `model`-role or tool results.  The source writes
this as `while (idx < len && (role === 'model' || isFunctionResponse))
idx++`, which equals `idx` plus the length of the satisfying prefix of
`curated.drop idx`. -/
def advCount : List Content → Nat
  | [] => 0
  | c :: rest =>
    if c.role = some "model" || isFunctionResponse c then 1 + advCount rest
    else 0

/-- The advanced cut index (see `advCount`). -/
def advanceIdx (curated : List Content) (idx : Nat) : Nat :=
  idx + advCount (curated.drop idx)

/-- A candidate of the secondary generation response, as far as the
compression path inspects it. -/
structure GenCandidate where
  content : Option Content

/-- The secondary generation response, as far as the compression path
inspects it. -/
structure GenResponse where
  candidates : List GenCandidate

/-- Embeds `ConversationManager.generateCompressionSummary`.  `gen` stands
for the secondary `contentGenerator.generateContent` call; `gen h = none`
models that call throwing.  The temporary manager's constructor validates
the roles of `historyToCompress` first and throws on a bad role.  A
response without candidate content parts raises
`Failed to generate compression summary`; otherwise the text parts are
joined with newlines and trimmed. -/
def generateCompressionSummary (gen : List Content → Option GenResponse)
    (historyToCompress : List Content) : Except CompressError String :=
  match validateHistory historyToCompress with
  | .error _ => .error .badRole
  | .ok () =>
    match gen historyToCompress with
    | none => .error .genFailed
    | some response =>
      match response.candidates.head? with
      | none => .error .noSummaryParts
      | some candidate =>
        match candidate.content with
        | none => .error .noSummaryParts
        | some content =>
          match content.parts with
          | none => .error .noSummaryParts
          | some parts =>
            let text := String.intercalate "\n"
              ((parts.filter (fun p => p.text.isSome)).map (fun p => p.text.getD ""))
            .ok (jsTrim text)

/-- The compression-info record returned by a completed compression. -/
structure ChatCompressionInfo where
  originalTokenCount : Nat
  newTokenCount : Nat
deriving DecidableEq

/-- Result of `tryCompress`: the stored history after the call, plus either
the source's return value (`none` = nothing done, `some info` = compression
ran) or the error it threw.  The stored history is replaced exactly at the
single assignment the source performs after obtaining the summary, so on
every error path the input history is returned unchanged. -/
structure CompressionOut where
  history : List Content
  result : Except CompressError (Option ChatCompressionInfo)

/-- The fixed model acknowledgment turn inserted by compression. -/
def ackContent : Content :=
  { role := some "model",
    parts := some [textPart "Got it. Thanks for the additional context!"] }

/-- Embeds `ConversationManager.tryCompress`.

Parameters standing for collaborators that are not part of the sources:
`strLen` for `JSON.stringify(·).length`, `count` for
`contentGenerator.countTokens` (returning `totalTokens`, `none` when
undefined), `gen` for the secondary generation call, and `limit` for
`tokenLimit(model)`.  The outer `Option` is `none` when curation of the
stored history diverges (see `extractCuratedHistory`). -/
def tryCompress (strLen : Content → Nat) (count : List Content → Option Nat)
    (gen : List Content → Option GenResponse) (limit : Nat)
    (history : List Content) (force : Bool) (threshold preserveThreshold : ℚ) :
    Option CompressionOut :=
  match extractCuratedHistory history with
  | none => none
  | some curatedHistory =>
    if curatedHistory.isEmpty then some ⟨history, .ok none⟩
    else
      match count curatedHistory with
      | none => some ⟨history, .ok none⟩
      | some originalTokenCount =>
        if !force && decide ((originalTokenCount : ℚ) < threshold * (limit : ℚ)) then
          some ⟨history, .ok none⟩
        else
          match findIndexAfterFraction strLen curatedHistory (1 - preserveThreshold) with
          | .error e => some ⟨history, .error e⟩
          | .ok idx0 =>
            let compressBeforeIndex := advanceIdx curatedHistory idx0
            let historyToCompress := curatedHistory.take compressBeforeIndex
            let historyToKeep := curatedHistory.drop compressBeforeIndex
            match generateCompressionSummary gen historyToCompress with
            | .error e => some ⟨history, .error e⟩
            | .ok summary =>
              let newHistory :=
                { role := some "user", parts := some [textPart summary] } ::
                  ackContent :: historyToKeep
              match count newHistory with
              | none => some ⟨newHistory, .ok none⟩
              | some newTokenCount =>
                some ⟨newHistory, .ok (some ⟨originalTokenCount, newTokenCount⟩)⟩

/-! ## OpenAICompatibleGenerator: token estimation -/

/-- ASCII word characters, the model of the JavaScript `\w` class. -/
def isWordChar (c : Char) : Bool := c.isAlphanum || c = '_'

/-- Counter for maximal whitespace runs; the flag records whether the
previous character was whitespace. -/
def wsRunsGo : Bool → List Char → Nat
  | _, [] => 0
  | prevWs, c :: rest =>
    if isWsChar c then (if prevWs then 0 else 1) + wsRunsGo true rest
    else wsRunsGo false rest

/-- Number of maximal whitespace runs in a character list. -/
def wsRuns (cs : List Char) : Nat := wsRunsGo false cs

/-- Embeds `estimateTokens` on a character list.  In the source,
`wordCount` is `text.split(/\s+/).length`, which equals one plus the
number of maximal whitespace runs (boundary empty segments included), and
`specialChars` counts matches of `[^\w\s]`.  `Math.ceil(x/4)`,
`Math.ceil(x*0.1)` and `Math.ceil(x*0.3)` are the exact ceiling divisions
below. -/
def estimateChars (cs : List Char) : Nat :=
  if cs.isEmpty then 0
  else
    let charCount := cs.length
    let wordCount := 1 + wsRuns cs
    let specialChars := (cs.filter (fun c => !isWordChar c && !isWsChar c)).length
    (charCount + 3) / 4 + (wordCount + 9) / 10 + (3 * specialChars + 9) / 10

/-- Embeds `OpenAICompatibleGenerator.estimateTokens` (`!text` returns 0,
which coincides with `estimateChars` on the empty list). -/
def estimateTokens (s : String) : Nat := estimateChars s.data

/-! ## Wire message shapes -/

/-- The `function` payload of a wire tool call; both fields may arrive in
pieces during streaming. -/
structure OpenAIFunctionPayload where
  name : Option String := none
  arguments : Option String := none
deriving DecidableEq

/-- A wire tool call (`OpenAIToolCall`): optional id, type and streaming
index. -/
structure OpenAIToolCall where
  id : Option String := none
  type : Option String := none
  index : Option Nat := none
  function : OpenAIFunctionPayload
deriving DecidableEq

/-- A wire chat message (`OpenAIMessage`): role is `system`, `user` or
`assistant`; `content` is `string | null`. -/
structure OpenAIMessage where
  role : String
  content : Option String
  tool_calls : Option (List OpenAIToolCall) := none
deriving DecidableEq

/-- A declared wire tool (`OpenAITool`).  `parametersJson` stands for the
builtin `JSON.stringify` applied to the parameter schema when the schema is
present. -/
structure OpenAIToolF where
  name : String
  description : Option String := none
  parametersJson : Option String := none
deriving DecidableEq

/-- Token limits per model (`TokenLimits`). -/
structure TokenLimits where
  maxTokens : Nat
  maxOutputTokens : Nat
  reserveTokens : Nat
deriving DecidableEq

/-- Embeds `estimateMessageTokens`: flat role overhead 4, content estimate,
and for messages carrying tool calls a base overhead of 10 plus, per call,
the estimates of its truthy name and arguments plus 5. -/
def estimateMessageTokens (message : OpenAIMessage) : Nat :=
  let contentTokens := match message.content with
    | some s => estimateTokens s
    | none => 0
  let toolTokens := match message.tool_calls with
    | some tcs =>
      if tcs.length > 0 then
        10 + (tcs.map (fun tc =>
          (match tc.function.name with
            | some n => if n ≠ "" then estimateTokens n else 0
            | none => 0) +
          (match tc.function.arguments with
            | some a => if a ≠ "" then estimateTokens a else 0
            | none => 0) + 5)).sum
      else 0
    | none => 0
  4 + contentTokens + toolTokens

/-- The `modelTokenLimits` map in insertion order, including the `default`
entry. -/
def modelTokenLimitsList : List (String × TokenLimits) :=
  [("gpt-4", ⟨8192, 4096, 1000⟩),
   ("gpt-4-32k", ⟨32768, 4096, 1000⟩),
   ("gpt-4-turbo", ⟨128000, 4096, 1000⟩),
   ("gpt-4o", ⟨128000, 4096, 1000⟩),
   ("gpt-3.5-turbo", ⟨16385, 4096, 1000⟩),
   ("claude-3-opus", ⟨200000, 4096, 1000⟩),
   ("claude-3-sonnet", ⟨200000, 4096, 1000⟩),
   ("claude-3-haiku", ⟨200000, 4096, 1000⟩),
   ("default", ⟨128000, 4096, 1000⟩)]

/-- Does `needle` occur at the head of `hay`? -/
def leadsWith : List Char → List Char → Bool
  | [], _ => true
  | _ :: _, [] => false
  | a :: as, b :: bs => a = b && leadsWith as bs

/-- Does `needle` occur anywhere in `hay`?  (`String.prototype.includes`;
the empty needle always occurs.) -/
def containsSub : List Char → List Char → Bool
  | hay, needle =>
    match hay with
    | [] => needle.isEmpty
    | _ :: rest => leadsWith needle hay || containsSub rest needle

/-- JavaScript `hay.includes(needle)` on embedded strings. -/
def strIncludes (hay needle : String) : Bool := containsSub hay.data needle.data

/-- JavaScript `model.split('-')[0]`: the segment before the first dash. -/
def headBeforeDash (model : String) : String :=
  String.mk (model.data.takeWhile (fun c => c ≠ '-'))

/-- Embeds `getTokenLimits`: exact map lookup, then the first map entry
(in insertion order) with `model.includes(pattern) ||
pattern.includes(model.split('-')[0])`, then the `default` entry. -/
def getTokenLimits (model : String) : TokenLimits :=
  match modelTokenLimitsList.find? (fun p => p.1 = model) with
  | some p => p.2
  | none =>
    match modelTokenLimitsList.find? (fun p =>
        strIncludes model p.1 || strIncludes p.1 (headBeforeDash model)) with
    | some p => p.2
    | none => ⟨128000, 4096, 1000⟩

/-! ## Message prioritization and budget optimization -/

/-- A prioritized message (`MessagePriority`).  `idx` is the message's
position in the input list; it stands for the JavaScript object identity
that `optimizeMessages` later feeds into its `messageOrder` map. -/
structure PrioritizedItem where
  idx : Nat
  message : OpenAIMessage
  priority : Int
  estimatedTokens : Nat
deriving DecidableEq

/-- Embeds `prioritizeMessages`: system 1000; the most recent five
messages 500 plus 50 per step of recency; tool-call messages 400; user
300; assistant 200; minus 50 per started thousand estimated tokens for
messages over 1000 tokens. -/
def prioritizeMessages (messages : List OpenAIMessage) : List PrioritizedItem :=
  messages.enum.map fun p =>
    let index : Nat := p.1
    let message := p.2
    let estimatedTokens := estimateMessageTokens message
    let hasToolCalls : Bool := match message.tool_calls with
      | some tcs => decide (tcs.length > 0)
      | none => false
    let base : Int :=
      if message.role = "system" then 1000
      else if (index : Int) ≥ (messages.length : Int) - 5 then
        500 + ((index : Int) - ((messages.length : Int) - 5)) * 50
      else if hasToolCalls then 400
      else if message.role = "user" then 300
      else 200
    let priority : Int :=
      if estimatedTokens > 1000 then base - ((estimatedTokens : Int) / 1000) * 50
      else base
    ⟨index, message, priority, estimatedTokens⟩

/-- Result of `truncateMessage`, distinguishing the branch that returns the
original message object (`keep`) from the branch that builds a new object
with truncated content (`replaced`).  The distinction matters because the
caller's `messageOrder` map is keyed by object identity. -/
inductive TruncOut where
  | keep : TruncOut
  | replaced (m : OpenAIMessage) : TruncOut
deriving DecidableEq

/-- JavaScript `content.split(' ')` on character lists: split on every
single space, keeping empty segments. -/
def splitSpace : List Char → List (List Char)
  | [] => [[]]
  | c :: rest =>
    let r := splitSpace rest
    if c = ' ' then [] :: r
    else
      match r with
      | h :: t => (c :: h) :: t
      | [] => [[c]]

/-- The word-accumulation loop of `truncateMessage`: greedily append words
(space-joined) while the estimate stays within `contentTokens`; `n` counts
the accepted words. -/
def truncLoop (contentTokens : Int) : List (List Char) → List Char → Nat → List Char × Nat
  | [], acc, n => (acc, n)
  | w :: ws, acc, n =>
    let test := if acc.isEmpty then w else acc ++ ' ' :: w
    if (estimateChars test : Int) > contentTokens then (acc, n)
    else truncLoop contentTokens ws test (n + 1)

/-- The literal truncation marker appended by `truncateMessage`. -/
def truncationMarker : List Char := "...[truncated]".data

/-- Embeds `truncateMessage`.  `none` is the source's `null`; `keep`
returns the message object unchanged (missing or empty content, or content
that already fits the headroom); `replaced` carries the freshly built
message whose content is the truncated text plus the marker.
`targetLength` models `Math.floor(length * ratio * 0.9)` as the exact
integer division; all quantities there are positive. -/
def truncateMessageCore (message : OpenAIMessage) (maxTokens : Int) : Option TruncOut :=
  if maxTokens ≤ 10 then none
  else
    match message.content with
    | none => some .keep
    | some content =>
      if content = "" then some .keep
      else
        let contentTokens := maxTokens - 10
        if contentTokens ≤ 0 then none
        else
          let currentTokens : Int := (estimateTokens content : Int)
          if currentTokens ≤ contentTokens then some .keep
          else
            let targetLength : Int :=
              ((content.data.length : Int) * contentTokens * 9) / (currentTokens * 10)
            if targetLength ≤ 50 then none
            else
              let words := splitSpace content.data
              let res := truncLoop contentTokens words [] 0
              if res.2 = 0 then none
              else
                some (.replaced
                  { message with content := some (String.mk (res.1 ++ truncationMarker)) })

/-- The source-shaped `truncateMessage`: `null`, or a message. -/
def truncateMessage (message : OpenAIMessage) (maxTokens : Int) : Option OpenAIMessage :=
  (truncateMessageCore message maxTokens).map fun o =>
    match o with
    | .keep => message
    | .replaced m => m

/-- An entry of the `optimized` array together with its key in the
`messageOrder` map of `optimizeMessages`: `some i` for an input message
object (mapped to its index `i`), `none` for a truncated replacement (a
fresh object, absent from the map, whose `messageOrder.get(a) || 0` sort
key falls back to 0). -/
structure TaggedMsg where
  tag : Option Nat
  msg : OpenAIMessage
deriving DecidableEq

/-- Sort key used by the final chronological re-sort (see `TaggedMsg`). -/
def sortKey (t : TaggedMsg) : Nat := t.tag.getD 0

/-- Embeds the tool-token computation of `optimizeMessages`: 10 per tool
plus name, truthy description and serialized parameter estimates. -/
def toolTokensOf (tools : Option (List OpenAIToolF)) : Nat :=
  match tools with
  | none => 0
  | some ts =>
    if ts.length > 0 then
      (ts.map (fun tool =>
        10 + estimateTokens tool.name +
        (match tool.description with
          | some d => if d ≠ "" then estimateTokens d else 0
          | none => 0) +
        (match tool.parametersJson with
          | some pj => estimateTokens pj
          | none => 0))).sum
    else 0

/-- The available token budget of `optimizeMessages`:
`min(maxTokens, limits.maxTokens) - reserveTokens - toolTokens`. -/
def availableTokensOf (model : String) (maxTokens : Int)
    (tools : Option (List OpenAIToolF)) : Int :=
  let limits := getTokenLimits model
  min maxTokens (limits.maxTokens : Int) - (limits.reserveTokens : Int) -
    (toolTokensOf tools : Int)

/-- The system-message pass of `optimizeMessages`: walk the prioritized
system messages in order, including each while it fits. -/
def sysPass (avail : Int) : List PrioritizedItem → List TaggedMsg → Int →
    List TaggedMsg × Int
  | [], opt, tot => (opt, tot)
  | it :: its, opt, tot =>
    if tot + (it.estimatedTokens : Int) ≤ avail then
      sysPass avail its (opt ++ [⟨some it.idx, it.message⟩]) (tot + (it.estimatedTokens : Int))
    else
      sysPass avail its opt tot

/-- The non-system pass of `optimizeMessages`: include while it fits, else
try truncation into the remaining headroom; a truncated (or kept) result
is pushed whenever its estimate is positive. -/
def mainPass (avail : Int) : List PrioritizedItem → List TaggedMsg → Int →
    List TaggedMsg × Int
  | [], opt, tot => (opt, tot)
  | it :: its, opt, tot =>
    if tot + (it.estimatedTokens : Int) ≤ avail then
      mainPass avail its (opt ++ [⟨some it.idx, it.message⟩]) (tot + (it.estimatedTokens : Int))
    else
      match truncateMessageCore it.message (avail - tot) with
      | none => mainPass avail its opt tot
      | some .keep =>
        if 0 < estimateMessageTokens it.message then
          mainPass avail its (opt ++ [⟨some it.idx, it.message⟩])
            (tot + (estimateMessageTokens it.message : Int))
        else
          mainPass avail its opt tot
      | some (.replaced m) =>
        if 0 < estimateMessageTokens m then
          mainPass avail its (opt ++ [⟨none, m⟩]) (tot + (estimateMessageTokens m : Int))
        else
          mainPass avail its opt tot

/-- Embeds `optimizeMessages`.  JavaScript `Array.prototype.sort` is a
stable sort, and a stable sort's output is a function of the comparator
alone, so both sorts are modelled by the stable structural
`List.insertionSort`: first the non-system messages by descending
priority, then the selected set by the `messageOrder` key (see
`TaggedMsg`).  The error is the `Token limit too restrictive` throw. -/
def optimizeMessages (model : String) (messages : List OpenAIMessage)
    (maxTokens : Int) (tools : Option (List OpenAIToolF)) :
    Except String (List TaggedMsg) :=
  let availableTokens := availableTokensOf model maxTokens tools
  if availableTokens ≤ 0 then
    .error "Token limit too restrictive"
  else
    let prioritized := prioritizeMessages messages
    let afterSys := sysPass availableTokens
      (prioritized.filter (fun p => p.message.role = "system")) [] 0
    let nonSystemMessages := List.insertionSort
      (fun a b : PrioritizedItem => b.priority ≤ a.priority)
      (prioritized.filter (fun p => p.message.role ≠ "system"))
    let afterMain := mainPass availableTokens nonSystemMessages afterSys.1 afterSys.2
    .ok (List.insertionSort (fun a b : TaggedMsg => sortKey a ≤ sortKey b) afterMain.1)

/-- The wire messages returned by `optimizeMessages` (the tags only model
object identity for the chronological re-sort). -/
def optimizeMessagesResult (model : String) (messages : List OpenAIMessage)
    (maxTokens : Int) (tools : Option (List OpenAIToolF)) :
    Except String (List OpenAIMessage) :=
  (optimizeMessages model messages maxTokens tools).map (List.map TaggedMsg.msg)

/-! ## Wire-to-canonical translation of complete responses -/

/-- JavaScript `a || b` for strings: `b` when `a` is missing or empty. -/
def jsOrString (v : Option String) (dflt : String) : String :=
  match v with
  | some s => if s = "" then dflt else s
  | none => dflt

/-- The tool-call translation formula shared by
`convertOpenAIToolCallsToGemini` and the `functionCalls` extraction of
`convertToGeminiResponse` (the source duplicates the code): best-effort
JSON parse of the arguments (failure or falsy arguments give the empty
object), `unknown_function` for a falsy name, and `tool_<index || 0>` for
a falsy id. -/
def toFunctionCallV (parse : String → Option JsonV) (toolCall : OpenAIToolCall) :
    FunctionCallV :=
  let args : JsonV := match toolCall.function.arguments with
    | some s =>
      if s ≠ "" then
        match parse s with
        | some v => v
        | none => .obj []
      else .obj []
    | none => .obj []
  { name := jsOrString toolCall.function.name "unknown_function",
    args := args,
    id := jsOrString toolCall.id ("tool_" ++ toString (toolCall.index.getD 0)) }

/-- Embeds `convertOpenAIToolCallsToGemini`: every wire tool call becomes a
function-call part. -/
def convertOpenAIToolCallsToGemini (parse : String → Option JsonV)
    (toolCalls : List OpenAIToolCall) : List Part :=
  toolCalls.map fun toolCall => { functionCall := some (toFunctionCallV parse toolCall) }

/-- Returns the suffix of `hay` after the first occurrence of `needle`,
or `none` when `needle` does not occur (`indexOf` plus `substring`). -/
def afterFirstSub (needle : List Char) : List Char → Option (List Char)
  | [] => if needle.isEmpty then some [] else none
  | c :: rest =>
    if leadsWith needle (c :: rest) then some ((c :: rest).drop needle.length)
    else afterFirstSub needle rest

/-- Embeds `trimThink`: when the text contains the closing marker of a
private reasoning segment, the part keeps only the trimmed text after the
marker and is flagged `thought := true`; otherwise the text is kept whole
with `thought := false`. -/
def trimThink (text : String) : Part :=
  match afterFirstSub "</think>".data text.data with
  | some suffix => { text := some (String.mk (jsTrimChars suffix)), thought := some true }
  | none => { text := some text, thought := some false }

/-- Finish reasons, as far as the adapter distinguishes them. -/
inductive FinishReasonV where
  | STOP : FinishReasonV
  | OTHER : FinishReasonV
deriving DecidableEq

/-- A translated response candidate. -/
structure GeminiCandidate where
  index : Nat
  content : Content
  finishReason : Option FinishReasonV

/-- Usage metadata copied from the wire response. -/
structure UsageMetadata where
  promptTokenCount : Nat
  candidatesTokenCount : Nat
  totalTokenCount : Nat
deriving DecidableEq

/-- The canonical translated response (`GenerateContentResponse` as far as
the adapter populates it). -/
structure GeminiResponse where
  candidates : List GeminiCandidate
  usageMetadata : Option UsageMetadata
  modelVersion : String
  functionCalls : List FunctionCallV

/-- The message inside a complete wire response choice. -/
structure OpenAIChoiceMsg where
  role : String
  content : Option String
  tool_calls : Option (List OpenAIToolCall) := none
deriving DecidableEq

/-- A complete wire response choice. -/
structure OpenAIChoice where
  index : Nat
  message : OpenAIChoiceMsg
  finish_reason : String
deriving DecidableEq

/-- Usage numbers of a complete wire response. -/
structure OpenAIUsage where
  prompt_tokens : Nat
  completion_tokens : Nat
  total_tokens : Nat
deriving DecidableEq

/-- A complete (non-streamed) wire response, as far as the translation
inspects it. -/
structure OpenAIResponse where
  model : String
  choices : List OpenAIChoice
  usage : OpenAIUsage
deriving DecidableEq

/-- Embeds `convertToGeminiResponse`.  `none` models the
`No choices in OpenAI response` throw.  Truthy text content becomes a
`trimThink` part; tool calls are translated by the shared formula both
into the root `functionCalls` and into function-call parts; an empty part
list is replaced by a single empty text part. -/
def convertToGeminiResponse (parse : String → Option JsonV)
    (openaiResponse : OpenAIResponse) : Option GeminiResponse :=
  match openaiResponse.choices.head? with
  | none => none
  | some choice =>
    let textParts : List Part := match choice.message.content with
      | some c => if c ≠ "" then [trimThink c] else []
      | none => []
    let toolCalls := choice.message.tool_calls.getD []
    let hasToolCalls : Bool := match choice.message.tool_calls with
      | some tcs => decide (tcs.length > 0)
      | none => false
    let functionCalls : List FunctionCallV :=
      if hasToolCalls then toolCalls.map (toFunctionCallV parse) else []
    let parts := textParts ++
      (if hasToolCalls then convertOpenAIToolCallsToGemini parse toolCalls else [])
    let candContent : Content :=
      { role := some "model",
        parts := some (if parts.length > 0 then parts else [{ text := some "" }]) }
    let cand : GeminiCandidate :=
      { index := choice.index,
        content := candContent,
        finishReason := some (if choice.finish_reason = "stop" then .STOP else .OTHER) }
    some
      { candidates := [cand],
        usageMetadata := some ⟨openaiResponse.usage.prompt_tokens,
          openaiResponse.usage.completion_tokens, openaiResponse.usage.total_tokens⟩,
        modelVersion := openaiResponse.model,
        functionCalls := functionCalls }

/-! ## Streaming decoder -/

/-- A streamed delta. -/
structure OpenAIStreamDelta where
  role : Option String := none
  content : Option String := none
  tool_calls : Option (List OpenAIToolCall) := none
deriving DecidableEq

/-- A streamed choice. -/
structure OpenAIStreamChoice where
  index : Nat
  delta : Option OpenAIStreamDelta
  finish_reason : Option String := none
deriving DecidableEq

/-- A parsed streaming record. -/
structure OpenAIStreamResponse where
  model : String
  choices : List OpenAIStreamChoice
deriving DecidableEq

/-- An accumulated tool call of the streaming decoder
(`accumulatedToolCalls` values). -/
structure AccEntry where
  id : String
  type : String
  name : Option String
  argumentsText : String
deriving DecidableEq

/-- The accumulator map of the streaming decoder in insertion order.  The
source keys a JavaScript `Map` by the string `tool_<index>`, which is
injective in the per-response index, so the embedding keys by the index
itself. -/
def AccMap : Type := List (Nat × AccEntry)

/-- Lookup in the accumulator map. -/
def accLookup (m : AccMap) (k : Nat) : Option AccEntry :=
  match m with
  | [] => none
  | (k', e) :: rest => if k' = k then some e else accLookup rest k

/-- In-place update of the accumulator map; a new key is appended at the
end, matching JavaScript `Map` insertion order. -/
def accUpdate (m : AccMap) (k : Nat) (e : AccEntry) : AccMap :=
  match m with
  | [] => [(k, e)]
  | (k', e') :: rest => if k' = k then (k, e) :: rest else (k', e') :: accUpdate rest k e

/-- Overwrite-on-truthy update for an optional accumulated string: a
truthy incoming value replaces the accumulator, anything else leaves
it. -/
def optStrStep (acc : Option String) (v : Option String) : Option String :=
  match v with
  | some s => if s ≠ "" then some s else acc
  | none => acc

/-- Overwrite-on-truthy update for a present accumulated string. -/
def strOverwriteStep (acc : String) (v : Option String) : String :=
  match v with
  | some s => if s ≠ "" then s else acc
  | none => acc

/-- Append-on-truthy update for the accumulated arguments text. -/
def argsStep (acc : String) (v : Option String) : String :=
  match v with
  | some a => if a ≠ "" then acc ++ a else acc
  | none => acc

/-- The fresh accumulator entry created on first sight of an index:
id falling back to `tool_<index>`, type to `function`, no name, empty
arguments. -/
def initAccEntry (deltaToolCall : OpenAIToolCall) : AccEntry :=
  { id := jsOrString deltaToolCall.id
      ("tool_" ++ toString (deltaToolCall.index.getD 0)),
    type := jsOrString deltaToolCall.type "function",
    name := none,
    argumentsText := "" }

/-- The per-delta field updates of the streaming accumulator: every truthy
name overwrites the accumulated name, every truthy arguments fragment is
appended, and every truthy id overwrites the accumulated id.  The source
performs these as three sequential in-place updates; they touch disjoint
fields, so they are recorded here as one record update.  The source also
guards the function updates with `if (deltaToolCall.function)`; the wire
type makes that field mandatory, so the guard is always taken. -/
def applyDeltaFields (deltaToolCall : OpenAIToolCall) (e : AccEntry) : AccEntry :=
  { id := strOverwriteStep e.id deltaToolCall.id,
    type := e.type,
    name := optStrStep e.name deltaToolCall.function.name,
    argumentsText := argsStep e.argumentsText deltaToolCall.function.arguments }

/-- Embeds the per-delta accumulation step of `parseStreamResponse`: the
entry is created on first sight of an index (see `initAccEntry`) and then
updated with the same delta's fields (see `applyDeltaFields`). -/
def processDeltaToolCall (acc : AccMap) (deltaToolCall : OpenAIToolCall) : AccMap :=
  let toolCallIndex := deltaToolCall.index.getD 0
  let start : AccEntry := match accLookup acc toolCallIndex with
    | some e => e
    | none => initAccEntry deltaToolCall
  accUpdate acc toolCallIndex (applyDeltaFields deltaToolCall start)

/-- The final emission at the `[DONE]` sentinel: of the accumulated calls,
those with a truthy name are emitted as one response whose parts are their
function-call fragments (best-effort parsed arguments, empty arguments
allowed); with no completed call nothing is emitted. -/
def finalToolCallParts (parse : String → Option JsonV) (acc : AccMap) :
    List (List Part) :=
  if acc.length > 0 then
    let completed := (acc.map Prod.snd).filter fun e =>
      match e.name with
      | some n => n ≠ ""
      | none => false
    if completed.length > 0 then
      [completed.map fun e =>
        let args : JsonV :=
          if e.argumentsText ≠ "" then
            match parse e.argumentsText with
            | some v => v
            | none => .obj []
          else .obj []
        { functionCall := some { name := e.name.getD "", args := args, id := e.id } }]
    else []
  else []

/-- One classified line of the stream: a parsed record, a skipped line
(not a `data:` line, or unparsable JSON), or the `[DONE]` sentinel. -/
inductive StreamItem where
  | record (r : OpenAIStreamResponse) : StreamItem
  | junk : StreamItem
  | fin : StreamItem

/-- The record-processing loop of `parseStreamResponse`: the sequence of
yielded part lists.  Text deltas are yielded immediately; tool-call deltas
only update the accumulator; the sentinel emits the completed tool calls
and stops (everything after it is unreachable, because the source
`return`s). -/
def streamYields (parse : String → Option JsonV) :
    List StreamItem → AccMap → List (List Part)
  | [], _ => []
  | .junk :: rest, acc => streamYields parse rest acc
  | .fin :: _, acc => finalToolCallParts parse acc
  | .record r :: rest, acc =>
    match r.choices.head? with
    | none => streamYields parse rest acc
    | some choice =>
      match choice.delta with
      | none => streamYields parse rest acc
      | some delta =>
        let textParts : List Part := match delta.content with
          | some c => if c ≠ "" then [{ text := some c }] else []
          | none => []
        let acc' := match delta.tool_calls with
          | some dtcs =>
            if dtcs.length > 0 then dtcs.foldl processDeltaToolCall acc else acc
          | none => acc
        if textParts.length > 0 then textParts :: streamYields parse rest acc'
        else streamYields parse rest acc'

/-- Classifies one complete buffered line exactly as the source loop does:
trim, require the `data: ` head, slice it off, recognise the sentinel,
else JSON-parse (`parseRecord` stands for the builtin `JSON.parse`;
failure is silently skipped). -/
def classifyLine (parseRecord : String → Option OpenAIStreamResponse)
    (line : String) : StreamItem :=
  let trimmed := jsTrimChars line.data
  if leadsWith "data: ".data trimmed then
    let dataChars := trimmed.drop 6
    if dataChars = "[DONE]".data then .fin
    else
      match parseRecord (String.mk dataChars) with
      | some r => .record r
      | none => .junk
  else .junk

/-- Embeds `parseStreamResponse` at the level of complete buffered lines:
the yielded part lists produced by classifying and folding every line. -/
def parseStreamResponse (parseRecord : String → Option OpenAIStreamResponse)
    (parse : String → Option JsonV) (lines : List String) : List (List Part) :=
  streamYields parse (lines.map (classifyLine parseRecord)) []

/-- A streaming record carrying a single tool-call delta at choice index 0,
used to state Claim C3. -/
def singleToolCallDeltaRecord (tc : OpenAIToolCall) : OpenAIStreamResponse :=
  { model := "", choices := [{ index := 0, delta := some { tool_calls := some [tc] } }] }

/-- Spec-side description (following the amended claim wording): the last
truthy value of a string field across the deltas, in order. -/
def lastTruthyStr (f : OpenAIToolCall → Option String) (ds : List OpenAIToolCall) :
    Option String :=
  ds.foldl (fun acc d => optStrStep acc (f d)) none

/-- Spec-side description: the name finally accumulated for the call — the
last non-empty name delta wins. -/
def specFinalName (ds : List OpenAIToolCall) : Option String :=
  lastTruthyStr (fun d => d.function.name) ds

/-- Spec-side description: the id finally accumulated for the call — the
last non-empty id delta wins, defaulting to `tool_0`. -/
def specFinalId (ds : List OpenAIToolCall) : String :=
  (lastTruthyStr (fun d => d.id) ds).getD "tool_0"

/-- Spec-side description: the in-order concatenation of the non-empty
argument fragments of the deltas. -/
def specArgsText (ds : List OpenAIToolCall) : String :=
  ds.foldl (fun acc d => argsStep acc d.function.arguments) ""

/-- The streaming accumulator entry after folding a list of deltas for one
index over a starting entry. -/
def applyDeltaFold (e : AccEntry) (ds : List OpenAIToolCall) : AccEntry :=
  ds.foldl (fun acc d => applyDeltaFields d acc) e


/-- Witness data (spec Scenario C): the first streamed delta carries only
the id. -/
def d1x : OpenAIToolCall := { id := some "call_abc", index := some 0, function := {} }

/-- Witness data: the second delta carries the name and a first arguments
fragment. -/
def d2x : OpenAIToolCall :=
  { index := some 0,
    function := { name := some "get_weather", arguments := some "\x7b\"loc" } }

/-- Witness data: the third delta carries the remaining arguments
fragment. -/
def d3x : OpenAIToolCall :=
  { index := some 0, function := { arguments := some "ation\":\"SF\"\x7d" } }

/-- Witness data: a JSON parser stub defined on the one string the
scenario assembles. -/
def parse0x : String → Option JsonV := fun s =>
  if s = "\x7b\"location\":\"SF\"\x7d" then some (.obj [("location", .str "SF")]) else none

/-- Counterexample data: a delta naming the call `alpha`. -/
def dAx : OpenAIToolCall := { index := some 0, function := { name := some "alpha" } }

/-- Counterexample data: a later delta renaming the call `beta`. -/
def dBx : OpenAIToolCall := { index := some 0, function := { name := some "beta" } }


/-- Witness data: the function call Scenario C is expected to emit. -/
def fcWx : FunctionCallV :=
  { name := "get_weather", args := JsonV.obj [("location", JsonV.str "SF")],
    id := "call_abc" }

/-- Counterexample data: the function call the alpha/beta stream emits. -/
def fcCx : FunctionCallV :=
  { name := "beta", args := JsonV.obj [], id := "tool_0" }


/-- Witness data for the tool-call translation: no id, a declared index of
2, an empty name and unparsable arguments. -/
def tcX : OpenAIToolCall :=
  { id := none, index := some 2,
    function := { name := some "", arguments := some "oops" } }

/-- Witness data: the fragment `tcX` is expected to translate to. -/
def fcX : FunctionCallV :=
  { name := "unknown_function", args := JsonV.obj [], id := "tool_2" }

/-- Counterexample data: a first id-less, index-less call. -/
def tcY : OpenAIToolCall := { function := { name := some "f" } }

/-- Counterexample data: a second id-less, index-less call. -/
def tcZ : OpenAIToolCall := { function := { name := some "g" } }

/-- Counterexample data: the translation of `tcY`. -/
def fcYa : FunctionCallV := { name := "f", args := JsonV.obj [], id := "tool_0" }

/-- Counterexample data: the translation of `tcZ` — the id repeats
`tool_0` even though this call sits at position 1. -/
def fcYb : FunctionCallV := { name := "g", args := JsonV.obj [], id := "tool_0" }


/-- A dummy wire message used as the default of positional lookups. -/
def mDummy : OpenAIMessage := { role := "", content := none }

/-- The tagged output entry an untruncated prioritized message turns
into. -/
def tagOf (it : PrioritizedItem) : TaggedMsg := ⟨some it.idx, it.message⟩


/-- Witness data: a small system message. -/
def sysW : OpenAIMessage := { role := "system", content := some "be brief" }

/-- Witness data: a small user message. -/
def usrW : OpenAIMessage := { role := "user", content := some "hi" }

/-- Counterexample data: a 39-character word. -/
def c6word : String := String.mk (List.replicate 39 'a')

/-- Counterexample data: seven long words, one estimate over the remaining
headroom. -/
def c6contentB : String :=
  c6word ++ " " ++ c6word ++ " " ++ c6word ++ " " ++ c6word ++ " " ++ c6word ++
    " " ++ c6word ++ " " ++ c6word

/-- Counterexample data: the short first (position 0) user message. -/
def c6msgHi : OpenAIMessage := { role := "user", content := some "hi" }

/-- Counterexample data: the oversized second (position 1) user message. -/
def c6msgB : OpenAIMessage := { role := "user", content := some c6contentB }

/-- Counterexample data: the truncated replacement of `c6msgB`. -/
def c6truncB : OpenAIMessage :=
  { role := "user",
    content := some (String.mk
      ((c6word ++ " " ++ c6word ++ " " ++ c6word ++ " " ++ c6word).data ++
        "...[truncated]".data)) }

/-- Counterexample data: a two-character word. -/
def c6wordAA : String := "aa"

/-- Counterexample data: forty short words. -/
def c6contentB2 : String := String.intercalate " " (List.replicate 40 c6wordAA)

/-- Counterexample data: a minimal tool call riding on the message. -/
def c6tcF : OpenAIToolCall :=
  { id := some "x", type := some "function", function := { name := some "f" } }

/-- Counterexample data: a user message with forty short words and one
tool call. -/
def c6msgB2 : OpenAIMessage :=
  { role := "user", content := some c6contentB2, tool_calls := some [c6tcF] }

/-- Counterexample data: the truncated replacement of `c6msgB2` — its
estimate is LARGER than the original's. -/
def c6truncB2 : OpenAIMessage :=
  { role := "user",
    content := some (String.mk
      ((String.intercalate " " (List.replicate 39 c6wordAA)).data ++
        "...[truncated]".data)),
    tool_calls := some [c6tcF] }

/-! ## Helper lemmas -/

theorem fifLoop_ge (target : ℚ) :
    ∀ (L : List Nat) (soFar : ℚ) (i : Nat), i ≤ fifLoop target L soFar i := by
  intro L
  induction L with
  | nil => intro soFar i; simp [fifLoop]
  | cons x xs ih =>
    intro soFar i
    simp only [fifLoop]
    split
    · exact le_refl i
    · exact le_trans (Nat.le_succ i) (ih (soFar + (x : ℚ)) (i + 1))

theorem fifLoop_le (target : ℚ) :
    ∀ (L : List Nat) (soFar : ℚ) (i : Nat), fifLoop target L soFar i ≤ i + L.length := by
  intro L
  induction L with
  | nil => intro soFar i; simp [fifLoop]
  | cons x xs ih =>
    intro soFar i
    simp only [fifLoop, List.length_cons]
    split
    · exact Nat.le_add_right i (xs.length + 1)
    · calc fifLoop target xs (soFar + (x : ℚ)) (i + 1) ≤ (i + 1) + xs.length :=
            ih (soFar + (x : ℚ)) (i + 1)
        _ = i + (xs.length + 1) := by omega

theorem fifLoop_before (target : ℚ) :
    ∀ (L : List Nat) (soFar : ℚ) (i j : Nat), i + j < fifLoop target L soFar i →
      soFar + (((L.take (j + 1)).sum : Nat) : ℚ) < target := by
  intro L
  induction L with
  | nil =>
    intro soFar i j h
    simp [fifLoop] at h
  | cons x xs ih =>
    intro soFar i j h
    simp only [fifLoop] at h
    by_cases hc : soFar + (x : ℚ) ≥ target
    · rw [if_pos hc] at h
      omega
    · rw [if_neg hc] at h
      push_neg at hc
      cases j with
      | zero => simpa using hc
      | succ k =>
        have := ih (soFar + (x : ℚ)) (i + 1) k (by omega)
        simp only [List.take_succ_cons, List.sum_cons] at this ⊢
        push_cast at this ⊢
        linarith

theorem fifLoop_hit (target : ℚ) :
    ∀ (L : List Nat) (soFar : ℚ) (i : Nat),
      fifLoop target L soFar i < i + L.length →
      soFar + (((L.take (fifLoop target L soFar i - i + 1)).sum : Nat) : ℚ) ≥ target := by
  intro L
  induction L with
  | nil => intro soFar i h; simp [fifLoop] at h
  | cons x xs ih =>
    intro soFar i h
    simp only [fifLoop] at h ⊢
    by_cases hc : soFar + (x : ℚ) ≥ target
    · rw [if_pos hc] at h ⊢
      simpa using hc
    · rw [if_neg hc] at h ⊢
      have hge1 : i + 1 ≤ fifLoop target xs (soFar + (x : ℚ)) (i + 1) :=
        fifLoop_ge target xs (soFar + (x : ℚ)) (i + 1)
      have hrec := ih (soFar + (x : ℚ)) (i + 1)
        (by simp only [List.length_cons] at h; omega)
      have hsub : fifLoop target xs (soFar + (x : ℚ)) (i + 1) - i + 1 =
          (fifLoop target xs (soFar + (x : ℚ)) (i + 1) - (i + 1) + 1) + 1 := by omega
      rw [hsub, List.take_succ_cons, List.sum_cons]
      push_cast at hrec ⊢
      linarith

theorem findIndexAfterFraction_ok (strLen : Content → Nat) (history : List Content)
    (fraction : ℚ) (h0 : 0 < fraction) (h1 : fraction < 1) :
    findIndexAfterFraction strLen history fraction =
      .ok (fifLoop ((((history.map strLen).sum : Nat) : ℚ) * fraction)
        (history.map strLen) 0 0) := by
  unfold findIndexAfterFraction
  rw [if_neg]
  push_neg
  exact ⟨h0, h1⟩

/-! ## Claim C8 -/

/-- Claim C8: for every history list and every fraction strictly between 0
and 1, `findIndexAfterFraction` returns an index in `[0, len(history)]`,
namely the first index at which the cumulative serialized length of the
turns reaches `fraction` times the total serialized length (or the list
length when no prefix reaches it); for every fraction `≤ 0` or `≥ 1` it
raises an error.  The serialized length `strLen` stands for the builtin
`JSON.stringify(·).length` and is arbitrary here. -/
theorem claim_C8 (strLen : Content → Nat) (history : List Content) (fraction : ℚ) :
    (0 < fraction ∧ fraction < 1 →
      ∃ i, findIndexAfterFraction strLen history fraction = .ok i ∧
        i ≤ history.length ∧
        (∀ j, j < i →
          ((((history.map strLen).take (j + 1)).sum : Nat) : ℚ) <
            (((history.map strLen).sum : Nat) : ℚ) * fraction) ∧
        (i < history.length →
          ((((history.map strLen).take (i + 1)).sum : Nat) : ℚ) ≥
            (((history.map strLen).sum : Nat) : ℚ) * fraction)) ∧
    (fraction ≤ 0 ∨ 1 ≤ fraction →
      findIndexAfterFraction strLen history fraction = .error .badFraction) := by
  constructor
  · rintro ⟨h0, h1⟩
    refine ⟨fifLoop ((((history.map strLen).sum : Nat) : ℚ) * fraction)
      (history.map strLen) 0 0, findIndexAfterFraction_ok strLen history fraction h0 h1,
      ?_, ?_, ?_⟩
    · have h := fifLoop_le ((((history.map strLen).sum : Nat) : ℚ) * fraction)
        (history.map strLen) 0 0
      rw [Nat.zero_add, List.length_map] at h
      exact h
    · intro j hj
      have h := fifLoop_before ((((history.map strLen).sum : Nat) : ℚ) * fraction)
        (history.map strLen) 0 0 j (by rwa [Nat.zero_add])
      rwa [zero_add] at h
    · intro hlt
      have h := fifLoop_hit ((((history.map strLen).sum : Nat) : ℚ) * fraction)
        (history.map strLen) 0 0 (by rw [Nat.zero_add, List.length_map]; exact hlt)
      rw [zero_add, Nat.sub_zero] at h
      exact h
  · intro h
    unfold findIndexAfterFraction
    rw [if_pos]
    rcases h with h | h
    · exact Or.inl h
    · exact Or.inr h

/-- Witness for C8: at a concrete two-turn history, a unit length function
and fraction `1/2`, the bounds part applies (hypotheses discharged by
`norm_num`); and at fraction `2`, the error part applies. -/
theorem claim_C8_witness :
    (∃ i, findIndexAfterFraction (fun _ => 1)
        [textContent "user" "a", textContent "model" "b"] (1/2) = .ok i ∧ i ≤ 2) ∧
    findIndexAfterFraction (fun _ => 1)
        [textContent "user" "a", textContent "model" "b"] 2 = .error .badFraction := by
  constructor
  · obtain ⟨i, hok, hle, -, -⟩ :=
      (claim_C8 (fun _ => 1) [textContent "user" "a", textContent "model" "b"] (1/2)).1
        (by norm_num)
    exact ⟨i, hok, by simpa using hle⟩
  · exact (claim_C8 (fun _ => 1) [textContent "user" "a", textContent "model" "b"] 2).2
      (by norm_num)

/-! ## Claim C10 -/

/-- Claim C10: role validation is enforced only by `setHistory` and the
constructor, not by `addHistory` — for every stored history and every turn
`c`, even one whose role is neither `user` nor `model`, `addHistory`
succeeds (it is a plain push) and the raw history returned by
`getHistory(false)` contains `c`; yet `setHistory` would reject that very
history with a role error. -/
theorem claim_C10 (stored : List Content) (c : Content)
    (hrole : c.role ≠ some "user" ∧ c.role ≠ some "model") :
    addHistory stored c = stored ++ [c] ∧
    c ∈ addHistory stored c ∧
    ∃ e, setHistory (addHistory stored c) = .error e := by
  refine ⟨rfl, by simp [addHistory], ?_⟩
  refine ⟨"Role must be user or model", ?_⟩
  unfold setHistory validateHistory
  rw [if_neg]
  intro hall
  rw [List.all_eq_true] at hall
  have := hall c (by simp [addHistory])
  rcases Bool.or_eq_true_iff.mp this with h | h
  · exact hrole.1 (by simpa using h)
  · exact hrole.2 (by simpa using h)

/-- Witness for C10: a `system`-role turn is accepted by `addHistory` into
an empty history but rejected by `setHistory`. -/
theorem claim_C10_witness :
    addHistory [] { role := some "system" } = [{ role := some "system" }] ∧
    ({ role := some "system" } : Content) ∈ addHistory [] { role := some "system" } ∧
    ∃ e, setHistory (addHistory [] { role := some "system" }) = .error e :=
  claim_C10 [] { role := some "system" } (by simp)

/-! ## Curation helpers -/

theorem takeWhile_append_all {α : Type} (p : α → Bool) (xs ys : List α)
    (h : ∀ x ∈ xs, p x = true) (h2 : ∀ y, ys.head? = some y → p y = false) :
    (xs ++ ys).takeWhile p = xs ∧ (xs ++ ys).dropWhile p = ys := by
  induction xs with
  | nil =>
    cases ys with
    | nil => simp
    | cons y t =>
      have hy := h2 y rfl
      simp [List.takeWhile_cons, List.dropWhile_cons, hy]
  | cons x xs ih =>
    have hx := h x (by simp)
    have ih' := ih (fun a ha => h a (by simp [ha]))
    simp only [List.cons_append, List.takeWhile_cons, List.dropWhile_cons, hx, if_true]
    exact ⟨by rw [ih'.1], ih'.2⟩

theorem takeWhile_append_stops {α : Type} (p : α → Bool) (xs ys : List α)
    (h : ∃ x ∈ xs, p x = false) :
    (xs ++ ys).takeWhile p = xs.takeWhile p ∧
    (xs ++ ys).dropWhile p = xs.dropWhile p ++ ys := by
  induction xs with
  | nil => simp at h
  | cons x xs ih =>
    by_cases hx : p x = true
    · have h' : ∃ a ∈ xs, p a = false := by
        rcases h with ⟨a, ha, hpa⟩
        rcases List.mem_cons.mp ha with rfl | ha'
        · rw [hx] at hpa; cases hpa
        · exact ⟨a, ha', hpa⟩
      have ih' := ih h'
      simp only [List.cons_append, List.takeWhile_cons, List.dropWhile_cons, hx, if_true]
      exact ⟨by rw [ih'.1], by rw [ih'.2]⟩
    · rw [Bool.not_eq_true] at hx
      simp [List.takeWhile_cons, List.dropWhile_cons, hx]

theorem dropWhile_length_le {α : Type} (p : α → Bool) (l : List α) :
    (l.dropWhile p).length ≤ l.length := by
  induction l with
  | nil => simp
  | cons x xs ih =>
    rw [List.dropWhile_cons]
    split
    · exact le_trans ih (Nat.le_succ _)
    · exact le_refl _

theorem curateFuel_congr (n : Nat) : ∀ (l acc : List Content) (f₁ f₂ : Nat),
    l.length ≤ n → l.length < f₁ → l.length < f₂ →
    curateFuel f₁ acc l = curateFuel f₂ acc l := by
  induction n with
  | zero =>
    intro l acc f₁ f₂ hn h1 h2
    have hl : l = [] := List.length_eq_zero.mp (Nat.le_zero.mp hn)
    subst hl
    cases f₁ with
    | zero => omega
    | succ f₁' =>
      cases f₂ with
      | zero => omega
      | succ f₂' => rfl
  | succ n ih =>
    intro l acc f₁ f₂ hn h1 h2
    cases l with
    | nil =>
      cases f₁ with
      | zero => omega
      | succ f₁' =>
        cases f₂ with
        | zero => omega
        | succ f₂' => rfl
    | cons c rest =>
      cases f₁ with
      | zero => omega
      | succ f₁' =>
        cases f₂ with
        | zero => omega
        | succ f₂' =>
          simp only [curateFuel]
          by_cases hu : c.role = some "user"
          · rw [if_pos hu, if_pos hu]
            exact ih rest (acc ++ [c]) f₁' f₂'
              (by simp at hn; omega) (by simp at h1; omega) (by simp at h2; omega)
          · rw [if_neg hu, if_neg hu]
            by_cases hm : c.role = some "model"
            · rw [if_pos hm, if_pos hm]
              have hdrop : (rest.dropWhile (fun x => x.role = some "model")).length ≤
                  rest.length := dropWhile_length_le _ _
              by_cases hv :
                  ((c :: rest.takeWhile (fun x => x.role = some "model")).all
                    isValidContent) = true
              · rw [if_pos hv, if_pos hv]
                exact ih _ _ f₁' f₂'
                  (by simp at hn; omega) (by simp at h1; omega) (by simp at h2; omega)
              · rw [if_neg hv, if_neg hv]
                exact ih _ _ f₁' f₂'
                  (by simp at hn; omega) (by simp at h1; omega) (by simp at h2; omega)
            · rw [if_neg hm, if_neg hm]


theorem headNotModel_of_userHead (B : List Content)
    (hB : B = [] ∨ ∃ b l, B = b :: l ∧ b.role = some "user") :
    ∀ y, B.head? = some y → decide (y.role = some "model") = false := by
  intro y hy
  rcases hB with rfl | ⟨b, l, rfl, hb⟩
  · simp at hy
  · simp only [List.head?_cons, Option.some.injEq] at hy
    subst hy
    simp [hb]

theorem curate_seg_base : ∀ (acc B R : List Content) (u : Content) (f₁ f₂ : Nat),
    (u :: (R ++ B)).length < f₁ → B.length < f₂ →
    u.role = some "user" → R ≠ [] → (∀ c ∈ R, c.role = some "model") →
    (∃ c ∈ R, isValidContent c = false) →
    (B = [] ∨ ∃ b l, B = b :: l ∧ b.role = some "user") →
    curateFuel f₁ acc (u :: (R ++ B)) = curateFuel f₂ acc B := by
  intro acc B R u f₁ f₂ h1 h2 hu hR0 hRm hinv hB
  cases f₁ with
  | zero => simp at h1
  | succ f₁' =>
    simp only [curateFuel, if_pos hu]
    cases R with
    | nil => exact absurd rfl hR0
    | cons r R' =>
      cases f₁' with
      | zero => simp at h1
      | succ f₁'' =>
        have hr : r.role = some "model" := hRm r (by simp)
        have hrnu : ¬ r.role = some "user" := by rw [hr]; simp
        have htw := takeWhile_append_all (fun x => decide (x.role = some "model")) R' B
          (fun x hx => decide_eq_true (hRm x (by simp [hx])))
          (headNotModel_of_userHead B hB)
        simp only [List.cons_append, curateFuel, List.append_eq, if_neg hrnu, if_pos hr,
          htw.1, htw.2]
        have hval : ¬ ((r :: R').all isValidContent = true) := by
          intro hall
          rcases hinv with ⟨c, hc, hcv⟩
          have := List.all_eq_true.mp hall c hc
          rw [hcv] at this
          cases this
        rw [if_neg hval, List.dropLast_concat]
        have hlen1 : B.length < f₁'' := by
          simp only [List.length_cons, List.length_append] at h1
          omega
        exact curateFuel_congr B.length B acc f₁'' f₂ (le_refl _) hlen1 h2

theorem curate_seg (n : Nat) : ∀ (A acc B R : List Content) (u : Content) (f₁ f₂ : Nat),
    A.length ≤ n →
    (A ++ u :: (R ++ B)).length < f₁ → (A ++ B).length < f₂ →
    u.role = some "user" → R ≠ [] → (∀ c ∈ R, c.role = some "model") →
    (∃ c ∈ R, isValidContent c = false) →
    (B = [] ∨ ∃ b l, B = b :: l ∧ b.role = some "user") →
    curateFuel f₁ acc (A ++ u :: (R ++ B)) = curateFuel f₂ acc (A ++ B) := by
  induction n with
  | zero =>
    intro A acc B R u f₁ f₂ hn h1 h2 hu hR0 hRm hinv hB
    have hA : A = [] := List.length_eq_zero.mp (Nat.le_zero.mp hn)
    subst hA
    simpa using curate_seg_base acc B R u f₁ f₂ (by simpa using h1) (by simpa using h2)
      hu hR0 hRm hinv hB
  | succ n ih =>
    intro A acc B R u f₁ f₂ hn h1 h2 hu hR0 hRm hinv hB
    cases A with
    | nil =>
      simpa using curate_seg_base acc B R u f₁ f₂ (by simpa using h1) (by simpa using h2)
        hu hR0 hRm hinv hB
    | cons c A' =>
      cases f₁ with
      | zero => simp at h1
      | succ f₁' =>
        cases f₂ with
        | zero => simp at h2
        | succ f₂' =>
          simp only [List.cons_append, curateFuel, List.append_eq]
          have hlenL : (A' ++ u :: (R ++ B)).length < f₁' := by
            simp only [List.length_cons, List.length_append] at h1 ⊢
            omega
          have hlenR : (A' ++ B).length < f₂' := by
            simp only [List.length_cons, List.length_append] at h2 ⊢
            omega
          have hnA : A'.length ≤ n := by
            simp only [List.length_cons] at hn
            omega
          by_cases hcu : c.role = some "user"
          · rw [if_pos hcu, if_pos hcu]
            exact ih A' (acc ++ [c]) B R u f₁' f₂' hnA hlenL hlenR hu hR0 hRm hinv hB
          · rw [if_neg hcu, if_neg hcu]
            by_cases hcm : c.role = some "model"
            · rw [if_pos hcm, if_pos hcm]
              by_cases hall : ∀ x ∈ A', x.role = some "model"
              · have htwL := takeWhile_append_all
                  (fun x => decide (x.role = some "model")) A' (u :: (R ++ B))
                  (fun x hx => decide_eq_true (hall x hx))
                  (by
                    intro y hy
                    simp only [List.head?_cons, Option.some.injEq] at hy
                    subst hy
                    simp [hu])
                have htwR := takeWhile_append_all
                  (fun x => decide (x.role = some "model")) A' B
                  (fun x hx => decide_eq_true (hall x hx))
                  (headNotModel_of_userHead B hB)
                rw [htwL.1, htwL.2, htwR.1, htwR.2]
                have hbaseL : (u :: (R ++ B)).length < f₁' := by
                  simp only [List.length_cons, List.length_append] at hlenL ⊢
                  omega
                have hbaseR : B.length < f₂' := by
                  simp only [List.length_append] at hlenR
                  omega
                by_cases hv : ((c :: A').all isValidContent = true)
                · rw [if_pos hv, if_pos hv]
                  exact curate_seg_base (acc ++ (c :: A')) B R u f₁' f₂'
                    hbaseL hbaseR hu hR0 hRm hinv hB
                · rw [if_neg hv, if_neg hv]
                  exact curate_seg_base acc.dropLast B R u f₁' f₂'
                    hbaseL hbaseR hu hR0 hRm hinv hB
              · push_neg at hall
                rcases hall with ⟨x, hx, hxm⟩
                have hstop : ∃ a ∈ A', (fun z => decide (z.role = some "model")) a = false :=
                  ⟨x, hx, decide_eq_false hxm⟩
                have htwL := takeWhile_append_stops
                  (fun z => decide (z.role = some "model")) A' (u :: (R ++ B)) hstop
                have htwR := takeWhile_append_stops
                  (fun z => decide (z.role = some "model")) A' B hstop
                rw [htwL.1, htwL.2, htwR.1, htwR.2]
                have hdl : (A'.dropWhile (fun z => decide (z.role = some "model"))).length ≤ n :=
                  le_trans (dropWhile_length_le _ _) hnA
                have hlenL2 : ((A'.dropWhile (fun z => decide (z.role = some "model"))) ++
                    u :: (R ++ B)).length < f₁' := by
                  have := dropWhile_length_le (fun z => decide (z.role = some "model")) A'
                  simp only [List.length_append, List.length_cons] at hlenL ⊢
                  omega
                have hlenR2 : ((A'.dropWhile (fun z => decide (z.role = some "model"))) ++
                    B).length < f₂' := by
                  have := dropWhile_length_le (fun z => decide (z.role = some "model")) A'
                  simp only [List.length_append] at hlenR ⊢
                  omega
                by_cases hv : ((c :: A'.takeWhile
                    (fun z => decide (z.role = some "model"))).all isValidContent = true)
                · rw [if_pos hv, if_pos hv]
                  exact ih _ _ B R u f₁' f₂' hdl hlenL2 hlenR2 hu hR0 hRm hinv hB
                · rw [if_neg hv, if_neg hv]
                  exact ih _ _ B R u f₁' f₂' hdl hlenL2 hlenR2 hu hR0 hRm hinv hB
            · rw [if_neg hcm, if_neg hcm]

/-! ## Claim C2 -/

/-- Claim C2: for every maximal run `R` of consecutive model turns that
contains at least one invalid turn, curation drops the whole run together
with the user turn immediately before it: curating
`A ++ [u] ++ R ++ B` equals curating `A ++ B` (maximality of the run is
the requirement that `B` not start with a model turn).  Scenario A of the
spec is this theorem at `A = B = []` (see the witness). -/
theorem claim_C2 (A B R : List Content) (u : Content)
    (hu : u.role = some "user") (hR0 : R ≠ [])
    (hRm : ∀ c ∈ R, c.role = some "model")
    (hinv : ∃ c ∈ R, isValidContent c = false)
    (hB : B = [] ∨ ∃ b l, B = b :: l ∧ b.role = some "user") :
    extractCuratedHistory (A ++ u :: (R ++ B)) = extractCuratedHistory (A ++ B) := by
  unfold extractCuratedHistory
  exact curate_seg A.length A [] B R u _ _ (le_refl _) (Nat.lt_succ_self _)
    (Nat.lt_succ_self _) hu hR0 hRm hinv hB

/-- Witness for C2 (Scenario A of the spec): the history
`[user "Hello", model ""]` — an empty, non-thought model text — curates to
the empty history: the invalid model run and the preceding user turn are
both dropped. -/
theorem claim_C2_witness :
    extractCuratedHistory [textContent "user" "Hello", textContent "model" ""] = some [] := by
  have h := claim_C2 [] [] [textContent "model" ""] (textContent "user" "Hello")
    (by rfl) (by simp) (by intro c hc; simp at hc; rw [hc]; rfl)
    ⟨textContent "model" "", by simp, by rfl⟩ (Or.inl rfl)
  simpa using h

/-! ## Alternation helpers and Claim C1 -/

theorem rolesAlternate_iff (l : List Content) :
    rolesAlternate l = true ↔ List.Chain' (fun a b : Content => a.role ≠ b.role) l := by
  induction l with
  | nil => simp [rolesAlternate]
  | cons a t ih =>
    cases t with
    | nil => simp [rolesAlternate]
    | cons b r =>
      simp only [rolesAlternate, Bool.and_eq_true, decide_eq_true_eq, List.chain'_cons]
      rw [ih]

theorem curate_alternates_core (n : Nat) : ∀ (l acc : List Content) (fuel : Nat),
    l.length ≤ n → l.length < fuel →
    (∀ c ∈ l, c.role = some "user" ∨ c.role = some "model") →
    List.Chain' (fun a b : Content => a.role ≠ b.role) l →
    (∀ c ∈ acc, c.role = some "user" ∨ c.role = some "model") →
    List.Chain' (fun a b : Content => a.role ≠ b.role) acc →
    (∀ x y, acc.getLast? = some x → l.head? = some y → x.role ≠ y.role) →
    ∃ r, curateFuel fuel acc l = some r ∧
      (∀ c ∈ r, c.role = some "user" ∨ c.role = some "model") ∧
      List.Chain' (fun a b : Content => a.role ≠ b.role) r := by
  induction n with
  | zero =>
    intro l acc fuel hn hf hgl hcl hga hca hlink
    have hl : l = [] := List.length_eq_zero.mp (Nat.le_zero.mp hn)
    subst hl
    cases fuel with
    | zero => simp at hf
    | succ fuel' => exact ⟨acc, rfl, hga, hca⟩
  | succ n ih =>
    intro l acc fuel hn hf hgl hcl hga hca hlink
    cases l with
    | nil =>
      cases fuel with
      | zero => simp at hf
      | succ fuel' => exact ⟨acc, rfl, hga, hca⟩
    | cons c rest =>
      cases fuel with
      | zero => simp at hf
      | succ fuel' =>
        simp only [curateFuel]
        have hnA : rest.length ≤ n := by simp at hn; omega
        have hfA : rest.length < fuel' := by simp at hf; omega
        have hrest_g : ∀ x ∈ rest, x.role = some "user" ∨ x.role = some "model" :=
          fun x hx => hgl x (List.mem_cons_of_mem c hx)
        have hrest_c : List.Chain' (fun a b : Content => a.role ≠ b.role) rest := hcl.tail
        have hrel := (List.chain'_cons'.mp hcl).1
        by_cases hcu : c.role = some "user"
        · rw [if_pos hcu]
          apply ih rest (acc ++ [c]) fuel' hnA hfA hrest_g hrest_c
          · intro x hx
            rcases List.mem_append.mp hx with hx | hx
            · exact hga x hx
            · simp at hx
              subst hx
              exact Or.inl hcu
          · rw [List.chain'_append]
            refine ⟨hca, List.chain'_singleton _, ?_⟩
            intro x hx y hy
            simp only [List.head?_cons, Option.mem_def, Option.some.injEq] at hy
            subst hy
            exact hlink x c (Option.mem_def.mp hx) rfl
          · intro x y hx hy
            rw [List.getLast?_concat] at hx
            injection hx with hx
            subst hx
            exact hrel y hy
        · have hcm : c.role = some "model" := by
            rcases hgl c (by simp) with h | h
            · exact absurd h hcu
            · exact h
          rw [if_neg hcu, if_pos hcm]
          have hheadrest : ∀ y, rest.head? = some y → y.role = some "user" := by
            intro y hy
            have h1 : c.role ≠ y.role := hrel y hy
            have hyg : y.role = some "user" ∨ y.role = some "model" := by
              cases rest with
              | nil => simp at hy
              | cons z t =>
                simp only [List.head?_cons, Option.some.injEq] at hy
                have hz := hrest_g z (by simp)
                rwa [hy] at hz
            rcases hyg with h | h
            · exact h
            · exact absurd (hcm.trans h.symm) h1
          have htw : rest.takeWhile (fun x => decide (x.role = some "model")) = [] ∧
              rest.dropWhile (fun x => decide (x.role = some "model")) = rest := by
            cases rest with
            | nil => simp
            | cons y t =>
              have hy := hheadrest y rfl
              have : ¬ y.role = some "model" := by rw [hy]; simp
              simp [List.takeWhile_cons, List.dropWhile_cons, this]
          rw [htw.1, htw.2]
          by_cases hv : (([c] : List Content).all isValidContent = true)
          · rw [if_pos hv]
            apply ih rest (acc ++ [c]) fuel' hnA hfA hrest_g hrest_c
            · intro x hx
              rcases List.mem_append.mp hx with hx | hx
              · exact hga x hx
              · simp at hx
                subst hx
                exact Or.inr hcm
            · rw [List.chain'_append]
              refine ⟨hca, List.chain'_singleton _, ?_⟩
              intro x hx y hy
              simp only [List.head?_cons, Option.mem_def, Option.some.injEq] at hy
              subst hy
              exact hlink x c (Option.mem_def.mp hx) rfl
            · intro x y hx hy
              rw [List.getLast?_concat] at hx
              injection hx with hx
              subst hx
              exact hrel y hy
          · rw [if_neg hv]
            apply ih rest acc.dropLast fuel' hnA hfA hrest_g hrest_c
            · intro x hx
              exact hga x ((List.dropLast_sublist acc).subset hx)
            · rcases List.eq_nil_or_concat' acc with rfl | ⟨as, a, rfl⟩
              · simp
              · rw [List.dropLast_concat]
                exact (List.chain'_append.mp hca).1
            · intro x y hx hy
              have hyu : y.role = some "user" := hheadrest y hy
              rcases List.eq_nil_or_concat' acc with rfl | ⟨as, a, rfl⟩
              · simp at hx
              · rw [List.dropLast_concat] at hx
                have hlast : (as ++ [a]).getLast? = some a := List.getLast?_concat _
                have hne := hlink a c hlast rfl
                have hau : a.role = some "user" := by
                  rcases hga a (by simp) with h | h
                  · exact h
                  · exact absurd (h.trans hcm.symm) hne
                have hxmem : x ∈ as := List.mem_of_mem_getLast? (Option.mem_def.mpr hx)
                have hxm : x.role = some "model" := by
                  have hne2 := (List.chain'_append.mp hca).2.2 x
                    (Option.mem_def.mpr hx) a (by simp)
                  rcases hga x (List.mem_append.mpr (Or.inl hxmem)) with h | h
                  · exact absurd (h.trans hau.symm) hne2
                  · exact h
                rw [hxm, hyu]
                simp

/-- Claim C1, amended: for every raw history whose turns all carry role
`user` or `model` and which itself strictly alternates roles, the curated
projection is defined and is either empty or strictly alternates
user/model.  (The claim as stated — for *every* raw history — is false:
curation keeps whole model runs and consecutive user turns as they are;
see the counterexample.) -/
theorem claim_C1 (H : List Content)
    (hgood : ∀ c ∈ H, c.role = some "user" ∨ c.role = some "model")
    (halt : rolesAlternate H = true) :
    ∃ r, extractCuratedHistory H = some r ∧ (r = [] ∨ rolesAlternate r = true) := by
  obtain ⟨r, hr, -, hcr⟩ := curate_alternates_core H.length H [] (H.length + 1)
    (le_refl _) (Nat.lt_succ_self _) hgood ((rolesAlternate_iff H).mp halt)
    (by intro c hc; simp at hc) List.chain'_nil
    (by intro x y hx hy; simp at hx)
  exact ⟨r, hr, Or.inr ((rolesAlternate_iff r).mpr hcr)⟩

/-- Witness for C1 at a concrete alternating history. -/
theorem claim_C1_witness :
    ∃ r, extractCuratedHistory [textContent "user" "hi", textContent "model" "ok"] = some r ∧
      (r = [] ∨ rolesAlternate r = true) :=
  claim_C1 [textContent "user" "hi", textContent "model" "ok"] (by decide) (by rfl)

/-- Counterexample to C1 as stated: the raw history of two valid
consecutive model turns is its own curated projection, which is non-empty
and does not alternate. -/
theorem claim_C1_counterexample :
    extractCuratedHistory [textContent "model" "a", textContent "model" "b"] =
      some [textContent "model" "a", textContent "model" "b"] ∧
    rolesAlternate [textContent "model" "a", textContent "model" "b"] = false ∧
    ([textContent "model" "a", textContent "model" "b"] : List Content) ≠ [] :=
  ⟨rfl, rfl, by simp⟩

/-! ## Claim C5 -/

/-- Claim C5: `recordHistory` with the user input `Tell me a story` and
two pure-text model outputs appends exactly two entries to any stored
history: the user turn and one consolidated model turn whose single
fragment is the concatenation `Once upon a time, there was a knight.` -/
theorem claim_C5 (stored : List Content) :
    recordHistory stored (textContent "user" "Tell me a story")
      [textContent "model" "Once upon a time, ", textContent "model" "there was a knight."]
      none =
    some (stored ++ [textContent "user" "Tell me a story",
      textContent "model" "Once upon a time, there was a knight."]) := by
  have ht1 : isThoughtContent (some (textContent "model" "Once upon a time, ")) = false := rfl
  have ht2 : isThoughtContent (some (textContent "model" "there was a knight.")) = false := rfl
  have htu : isTextContent (some (textContent "user" "Tell me a story")) = false := rfl
  have hcons : consolidateOutput [textContent "model" "Once upon a time, ",
      textContent "model" "there was a knight."] =
      [textContent "model" "Once upon a time, there was a knight."] := rfl
  have hrole1 : (textContent "model" "Once upon a time, ").role.isSome = true := rfl
  have hrole2 : (textContent "model" "there was a knight.").role.isSome = true := rfl
  unfold recordHistory
  simp only [List.filter_cons, List.filter_nil, ht1, ht2, Bool.not_false, if_true,
    List.length_cons, List.length_nil, List.all_cons, List.all_nil, hrole1, hrole2,
    Bool.and_true, hcons]
  norm_num [List.getLast?_concat, htu]
  rfl



theorem advCount_le (l : List Content) : advCount l ≤ l.length := by
  induction l with
  | nil => simp [advCount]
  | cons c rest ih =>
    rw [advCount]
    split
    · simp only [List.length_cons]
      omega
    · simp

theorem advanceIdx_le (l : List Content) (i : Nat) (h : i ≤ l.length) :
    advanceIdx l i ≤ l.length := by
  unfold advanceIdx
  have h1 := advCount_le (l.drop i)
  rw [List.length_drop] at h1
  omega

theorem advCount_head (l : List Content) :
    ∀ c, (l.drop (advCount l)).head? = some c →
      c.role ≠ some "model" ∧ isFunctionResponse c = false := by
  induction l with
  | nil => intro c hc; simp at hc
  | cons x rest ih =>
    intro c hc
    rw [advCount] at hc
    by_cases hp : (x.role = some "model" || isFunctionResponse x) = true
    · rw [if_pos hp] at hc
      rw [Nat.add_comm, List.drop_succ_cons] at hc
      exact ih c hc
    · rw [if_neg hp] at hc
      simp only [List.drop_zero, List.head?_cons, Option.some.injEq] at hc
      subst hc
      simp only [Bool.or_eq_true, not_or] at hp
      push_neg at hp
      constructor
      · intro hh
        exact hp.1 (by simp [hh])
      · simpa using hp.2

theorem advanceIdx_head (l : List Content) (i : Nat) :
    ∀ c, (l.drop (advanceIdx l i)).head? = some c →
      c.role ≠ some "model" ∧ isFunctionResponse c = false := by
  intro c hc
  unfold advanceIdx at hc
  rw [← List.drop_drop] at hc
  exact advCount_head (l.drop i) c hc

theorem findIndexAfterFraction_le (strLen : Content → Nat) (history : List Content)
    (fraction : ℚ) (i : Nat)
    (h : findIndexAfterFraction strLen history fraction = .ok i) : i ≤ history.length := by
  unfold findIndexAfterFraction at h
  split at h
  · cases h
  · injection h with h
    subst h
    have := fifLoop_le ((((history.map strLen).sum : Nat) : ℚ) * fraction)
      (history.map strLen) 0 0
    simpa using this

/-- Claim C4: whenever a compression pass runs to completion (the result
is `.ok (some info)`), the new stored history is exactly one synthetic
user turn whose single fragment is the (trimmed) summary produced by the
secondary generation call, then the fixed model acknowledgment turn, then
the preserved tail of the curated history from the cut index onward,
unchanged; and the cut index has been advanced past every immediately
following model-role or tool-result turn, so the first preserved turn (if
any) is neither. -/
theorem claim_C4 (strLen : Content → Nat) (count : List Content → Option Nat)
    (gen : List Content → Option GenResponse) (limit : Nat) (history : List Content)
    (force : Bool) (threshold preserveThreshold : ℚ) (out : CompressionOut)
    (info : ChatCompressionInfo)
    (h : tryCompress strLen count gen limit history force threshold preserveThreshold =
      some out)
    (hok : out.result = .ok (some info)) :
    ∃ curated idx summary,
      extractCuratedHistory history = some curated ∧
      idx ≤ curated.length ∧
      generateCompressionSummary gen (curated.take idx) = .ok summary ∧
      out.history = { role := some "user", parts := some [textPart summary] } ::
        ackContent :: curated.drop idx ∧
      (∀ c, (curated.drop idx).head? = some c →
        c.role ≠ some "model" ∧ isFunctionResponse c = false) := by
  cases hcur : extractCuratedHistory history with
  | none =>
    unfold tryCompress at h
    rw [hcur] at h
    exact Option.noConfusion h
  | some curated =>
    unfold tryCompress at h
    rw [hcur] at h
    split at h
    next => exact Option.noConfusion h
    next curated' heq =>
      injection heq with heq
      subst heq
      refine ⟨curated, ?_⟩
      split at h
      next hemp =>
        injection h with h
        subst h
        simp at hok
      next hemp =>
        split at h
        next hcount =>
          injection h with h
          subst h
          simp at hok
        next originalTokenCount hcount =>
          split at h
          next hthr =>
            injection h with h
            subst h
            simp at hok
          next hthr =>
            split at h
            next e hfif =>
              injection h with h
              subst h
              simp at hok
            next idx0 hfif =>
              simp only [] at h
              split at h
              next e hgen =>
                injection h with h
                subst h
                simp at hok
              next summary hgen =>
                split at h
                next hcount2 =>
                  injection h with h
                  subst h
                  simp at hok
                next newTokenCount hcount2 =>
                  injection h with h
                  subst h
                  refine ⟨advanceIdx curated idx0, summary, rfl, ?_, hgen, rfl, ?_⟩
                  · exact advanceIdx_le curated idx0
                      (findIndexAfterFraction_le strLen curated (1 - preserveThreshold)
                        idx0 hfif)
                  · intro c hc
                    exact advanceIdx_head curated idx0 c hc

/-- Claim C7: if the secondary generation call that produces the
compression summary fails — it throws, or returns a response without
candidate content parts, which is exactly the hypothesis that
`generateCompressionSummary` always returns an error — then `tryCompress`
leaves the stored history exactly as it was, and its result is either the
propagated error or the nothing-done `.ok none` of the paths on which the
generation call was never reached; a successful compression is
impossible. -/
theorem claim_C7 (strLen : Content → Nat) (count : List Content → Option Nat)
    (gen : List Content → Option GenResponse) (limit : Nat) (history : List Content)
    (force : Bool) (threshold preserveThreshold : ℚ) (out : CompressionOut)
    (hgen : ∀ h', ∃ e, generateCompressionSummary gen h' = .error e)
    (h : tryCompress strLen count gen limit history force threshold preserveThreshold =
      some out) :
    out.history = history ∧ (out.result = .ok none ∨ ∃ e, out.result = .error e) := by
  cases hcur : extractCuratedHistory history with
  | none =>
    unfold tryCompress at h
    rw [hcur] at h
    exact Option.noConfusion h
  | some curated =>
    unfold tryCompress at h
    rw [hcur] at h
    split at h
    next => exact Option.noConfusion h
    next curated' heq =>
      injection heq with heq
      subst heq
      split at h
      next hemp =>
        injection h with h
        subst h
        exact ⟨rfl, Or.inl rfl⟩
      next hemp =>
        split at h
        next hcount =>
          injection h with h
          subst h
          exact ⟨rfl, Or.inl rfl⟩
        next originalTokenCount hcount =>
          split at h
          next hthr =>
            injection h with h
            subst h
            exact ⟨rfl, Or.inl rfl⟩
          next hthr =>
            split at h
            next e hfif =>
              injection h with h
              subst h
              exact ⟨rfl, Or.inr ⟨e, rfl⟩⟩
            next idx0 hfif =>
              simp only [] at h
              split at h
              next e hg =>
                injection h with h
                subst h
                exact ⟨rfl, Or.inr ⟨e, rfl⟩⟩
              next summary hg =>
                obtain ⟨e, he⟩ := hgen (curated.take (advanceIdx curated idx0))
                rw [he] at hg
                cases hg

theorem tryCompress_run_genFail :
    tryCompress (fun _ => 0) (fun _ => some 80000) (fun _ => none) 100000
      [textContent "user" "Hello", textContent "model" "Hi there!"] false (7/10) (3/10) =
    some ⟨[textContent "user" "Hello", textContent "model" "Hi there!"],
      .error .genFailed⟩ := by
  have hcur : extractCuratedHistory
      [textContent "user" "Hello", textContent "model" "Hi there!"] =
      some [textContent "user" "Hello", textContent "model" "Hi there!"] := rfl
  have hthr : (!false && decide (((80000 : Nat) : ℚ) < (7/10) * ((100000 : Nat) : ℚ))) =
      false := by
    simp only [Bool.not_false, Bool.true_and]
    rw [decide_eq_false_iff_not]
    push_cast
    norm_num
  have hfif : findIndexAfterFraction (fun _ => 0)
      [textContent "user" "Hello", textContent "model" "Hi there!"] (1 - 3/10) = .ok 0 := by
    unfold findIndexAfterFraction
    rw [if_neg (by norm_num)]
    simp only [List.map_cons, List.map_nil, List.sum_cons, List.sum_nil, fifLoop]
    norm_num
  have hadv : advanceIdx [textContent "user" "Hello", textContent "model" "Hi there!"] 0 =
      0 := rfl
  have hgcs : generateCompressionSummary (fun _ => none)
      ([] : List Content) = .error .genFailed := rfl
  simp only [tryCompress, hcur, List.isEmpty_cons, Bool.false_eq_true, if_false, hthr,
    hfif, hadv, List.take_zero, List.drop_zero, hgcs]

theorem tryCompress_run_ok :
    tryCompress (fun _ => 0) (fun _ => some 80000)
      (fun _ => some ⟨[⟨some (textContent "model" "  a summary  ")⟩]⟩) 100000
      [textContent "user" "Hello", textContent "model" "Hi there!"] false (7/10) (3/10) =
    some ⟨[textContent "user" "a summary", ackContent,
      textContent "user" "Hello", textContent "model" "Hi there!"],
      .ok (some ⟨80000, 80000⟩)⟩ := by
  have hcur : extractCuratedHistory
      [textContent "user" "Hello", textContent "model" "Hi there!"] =
      some [textContent "user" "Hello", textContent "model" "Hi there!"] := rfl
  have hthr : (!false && decide (((80000 : Nat) : ℚ) < (7/10) * ((100000 : Nat) : ℚ))) =
      false := by
    simp only [Bool.not_false, Bool.true_and]
    rw [decide_eq_false_iff_not]
    push_cast
    norm_num
  have hfif : findIndexAfterFraction (fun _ => 0)
      [textContent "user" "Hello", textContent "model" "Hi there!"] (1 - 3/10) = .ok 0 := by
    unfold findIndexAfterFraction
    rw [if_neg (by norm_num)]
    simp only [List.map_cons, List.map_nil, List.sum_cons, List.sum_nil, fifLoop]
    norm_num
  have hadv : advanceIdx [textContent "user" "Hello", textContent "model" "Hi there!"] 0 =
      0 := rfl
  have hgcs : generateCompressionSummary
      (fun _ => some ⟨[⟨some (textContent "model" "  a summary  ")⟩]⟩)
      ([] : List Content) = .ok "a summary" := rfl
  simp only [tryCompress, hcur, List.isEmpty_cons, Bool.false_eq_true, if_false, hthr,
    hfif, hadv, List.take_zero, List.drop_zero, hgcs]
  rfl


/-- Witness for C4: a concrete completed compression run (token count
80000 against limit 100000 with threshold `7/10`). -/
theorem claim_C4_witness :
    ∃ out curated idx summary,
      tryCompress (fun _ => 0) (fun _ => some 80000)
        (fun _ => some ⟨[⟨some (textContent "model" "  a summary  ")⟩]⟩) 100000
        [textContent "user" "Hello", textContent "model" "Hi there!"] false (7/10) (3/10) =
        some out ∧
      extractCuratedHistory [textContent "user" "Hello", textContent "model" "Hi there!"] =
        some curated ∧
      idx ≤ curated.length ∧
      generateCompressionSummary
        (fun _ => some ⟨[⟨some (textContent "model" "  a summary  ")⟩]⟩)
        (curated.take idx) = .ok summary ∧
      out.history = { role := some "user", parts := some [textPart summary] } ::
        ackContent :: curated.drop idx ∧
      (∀ c, (curated.drop idx).head? = some c →
        c.role ≠ some "model" ∧ isFunctionResponse c = false) := by
  obtain ⟨cur, idx, s, h1, h2, h3, h4, h5⟩ :=
    claim_C4 (fun _ => 0) (fun _ => some 80000)
      (fun _ => some ⟨[⟨some (textContent "model" "  a summary  ")⟩]⟩) 100000
      [textContent "user" "Hello", textContent "model" "Hi there!"] false (7/10) (3/10)
      _ ⟨80000, 80000⟩ tryCompress_run_ok rfl
  exact ⟨_, cur, idx, s, tryCompress_run_ok, h1, h2, h3, h4, h5⟩

/-- Witness for C7: with a generation call that always throws, the
concrete compression attempt propagates the error and leaves the stored
history unchanged. -/
theorem claim_C7_witness :
    ∃ out,
      tryCompress (fun _ => 0) (fun _ => some 80000) (fun _ => none) 100000
        [textContent "user" "Hello", textContent "model" "Hi there!"] false (7/10) (3/10) =
        some out ∧
      out.history = [textContent "user" "Hello", textContent "model" "Hi there!"] ∧
      (out.result = .ok none ∨ ∃ e, out.result = .error e) := by
  have hgen : ∀ h', ∃ e, generateCompressionSummary (fun _ => none) h' = .error e := by
    intro h'
    unfold generateCompressionSummary
    cases hval : validateHistory h' with
    | error e => exact ⟨.badRole, rfl⟩
    | ok u =>
      cases u
      exact ⟨.genFailed, rfl⟩
  obtain ⟨h1, h2⟩ := claim_C7 (fun _ => 0) (fun _ => some 80000) (fun _ => none) 100000
    [textContent "user" "Hello", textContent "model" "Hi there!"] false (7/10) (3/10)
    _ hgen tryCompress_run_genFail
  exact ⟨_, tryCompress_run_genFail, h1, h2⟩

/-! ## Streaming decoder lemmas and Claim C3 -/

theorem streamYields_records (parse : String → Option JsonV) :
    ∀ (ds : List OpenAIToolCall) (acc : AccMap),
      streamYields parse
        ((ds.map (fun d => StreamItem.record (singleToolCallDeltaRecord d))) ++
          [StreamItem.fin]) acc =
      finalToolCallParts parse (ds.foldl processDeltaToolCall acc) := by
  intro ds
  induction ds with
  | nil => intro acc; rfl
  | cons d ds ih =>
    intro acc
    exact ih (processDeltaToolCall acc d)

theorem foldl_processDelta_single (ds : List OpenAIToolCall)
    (hidx : ∀ d ∈ ds, d.index.getD 0 = 0) :
    ∀ e, ds.foldl processDeltaToolCall [(0, e)] = [(0, applyDeltaFold e ds)] := by
  induction ds with
  | nil => intro e; rfl
  | cons d ds ih =>
    intro e
    have hd : d.index.getD 0 = 0 := hidx d (by simp)
    have hstep : processDeltaToolCall [(0, e)] d = [(0, applyDeltaFields d e)] := by
      unfold processDeltaToolCall
      rw [hd]
      rfl
    rw [List.foldl_cons, hstep]
    exact ih (fun x hx => hidx x (by simp [hx])) (applyDeltaFields d e)

theorem foldl_processDelta_all (d : OpenAIToolCall) (ds : List OpenAIToolCall)
    (hidx : ∀ x ∈ d :: ds, x.index.getD 0 = 0) :
    (d :: ds).foldl processDeltaToolCall [] =
      [(0, applyDeltaFold (initAccEntry d) (d :: ds))] := by
  have hd : d.index.getD 0 = 0 := hidx d (by simp)
  have hstep : processDeltaToolCall [] d = [(0, applyDeltaFields d (initAccEntry d))] := by
    unfold processDeltaToolCall
    rw [hd]
    rfl
  rw [List.foldl_cons, hstep]
  exact foldl_processDelta_single ds (fun x hx => hidx x (by simp [hx]))
    (applyDeltaFields d (initAccEntry d))

theorem applyDeltaFold_name : ∀ (ds : List OpenAIToolCall) (e : AccEntry),
    (applyDeltaFold e ds).name =
      ds.foldl (fun acc d => optStrStep acc d.function.name) e.name := by
  intro ds
  induction ds with
  | nil => intro e; rfl
  | cons d ds ih => intro e; exact ih (applyDeltaFields d e)

theorem applyDeltaFold_args : ∀ (ds : List OpenAIToolCall) (e : AccEntry),
    (applyDeltaFold e ds).argumentsText =
      ds.foldl (fun acc d => argsStep acc d.function.arguments) e.argumentsText := by
  intro ds
  induction ds with
  | nil => intro e; rfl
  | cons d ds ih => intro e; exact ih (applyDeltaFields d e)

theorem applyDeltaFold_id : ∀ (ds : List OpenAIToolCall) (e : AccEntry),
    (applyDeltaFold e ds).id =
      ds.foldl (fun acc d => strOverwriteStep acc d.id) e.id := by
  intro ds
  induction ds with
  | nil => intro e; rfl
  | cons d ds ih => intro e; exact ih (applyDeltaFields d e)

theorem strOverwrite_eq_optStr_getD (f : OpenAIToolCall → Option String) :
    ∀ (ds : List OpenAIToolCall) (s a : String),
      ds.foldl (fun acc d => strOverwriteStep acc (f d)) s =
        (ds.foldl (fun acc d => optStrStep acc (f d)) (some s)).getD a := by
  intro ds
  induction ds with
  | nil => intro s a; rfl
  | cons d ds ih =>
    intro s a
    rw [List.foldl_cons, List.foldl_cons]
    unfold strOverwriteStep optStrStep
    cases hf : f d with
    | none => exact ih s a
    | some t =>
      by_cases ht : t = ""
      · simp only [ht, ne_eq, not_true_eq_false, if_false]
        exact ih s a
      · simp only [ne_eq, ht, not_false_eq_true, if_true]
        exact ih t a

theorem strOverwrite_from_default (f : OpenAIToolCall → Option String) :
    ∀ (ds : List OpenAIToolCall) (a : String),
      ds.foldl (fun acc d => strOverwriteStep acc (f d)) a =
        (ds.foldl (fun acc d => optStrStep acc (f d)) none).getD a := by
  intro ds
  induction ds with
  | nil => intro a; rfl
  | cons d ds ih =>
    intro a
    rw [List.foldl_cons, List.foldl_cons]
    unfold strOverwriteStep optStrStep
    cases hf : f d with
    | none => exact ih a
    | some t =>
      by_cases ht : t = ""
      · simp only [ht, ne_eq, not_true_eq_false, if_false]
        exact ih a
      · simp only [ne_eq, ht, not_false_eq_true, if_true]
        exact strOverwrite_eq_optStr_getD f ds t a

theorem id_first_step :
    ∀ (ds : List OpenAIToolCall) (i : Option String) (a : String),
      List.foldl (fun acc d => strOverwriteStep acc d.id)
          (strOverwriteStep (jsOrString i a) i) ds =
        (List.foldl (fun acc d => optStrStep acc d.id) (optStrStep none i) ds).getD a := by
  intro ds i a
  cases i with
  | none => exact strOverwrite_from_default (fun x => x.id) ds a
  | some s =>
    by_cases hs : s = ""
    · subst hs
      simp only [jsOrString, strOverwriteStep, optStrStep, ne_eq, not_true_eq_false,
        if_false, if_pos rfl]
      exact strOverwrite_from_default (fun x => x.id) ds a
    · simp only [jsOrString, strOverwriteStep, optStrStep, ne_eq, hs, not_false_eq_true,
      if_true, if_neg hs]
      exact strOverwrite_eq_optStr_getD (fun x => x.id) ds s a

theorem finalId_eq (d : OpenAIToolCall) (ds : List OpenAIToolCall)
    (hd : d.index.getD 0 = 0) :
    (applyDeltaFold (initAccEntry d) (d :: ds)).id = specFinalId (d :: ds) := by
  rw [applyDeltaFold_id]
  unfold specFinalId lastTruthyStr
  rw [List.foldl_cons, List.foldl_cons]
  simp only []
  have hinit : (initAccEntry d).id = jsOrString d.id "tool_0" := by
    unfold initAccEntry
    rw [hd]
    rfl
  rw [hinit]
  exact id_first_step ds d.id "tool_0"

theorem finalName_eq (d : OpenAIToolCall) (ds : List OpenAIToolCall) :
    (applyDeltaFold (initAccEntry d) (d :: ds)).name = specFinalName (d :: ds) := by
  rw [applyDeltaFold_name]
  rfl

theorem finalArgs_eq (d : OpenAIToolCall) (ds : List OpenAIToolCall) :
    (applyDeltaFold (initAccEntry d) (d :: ds)).argumentsText = specArgsText (d :: ds) := by
  rw [applyDeltaFold_args]
  rfl

theorem finalToolCallParts_single (parse : String → Option JsonV) (e : AccEntry)
    (n : String) (hn : e.name = some n) (hne : n ≠ "") :
    finalToolCallParts parse [(0, e)] =
      [[{ functionCall := some
            { name := n,
              args := if e.argumentsText ≠ ""
                then (parse e.argumentsText).getD (JsonV.obj [])
                else JsonV.obj [],
              id := e.id } }]] := by
  simp only [finalToolCallParts, List.length_cons, List.length_nil, Nat.zero_add,
    gt_iff_lt, Nat.lt_irrefl, Nat.zero_lt_one, if_true, List.map_cons, List.map_nil,
    List.filter_cons, List.filter_nil, hn, ne_eq, hne, not_false_eq_true,
    if_pos, Option.getD_some]
  by_cases ha : e.argumentsText = ""
  · simp [ha, hn]
  · cases hp : parse e.argumentsText with
    | none => simp [ha, hp, hn]
    | some v => simp [ha, hp, hn]

/-- Claim C3 (corrected): when all deltas of a streamed tool call address
index 0 and some delta carries a non-empty name, the decoder emits at the
`[DONE]` sentinel exactly one response containing exactly one function
call, whose name is the LAST non-empty name delta (not the first), whose
arguments are the best-effort parse of the in-order concatenation of the
non-empty argument fragments, and whose id is the last non-empty id delta,
defaulting to `tool_0`. -/
theorem claim_C3 (parse : String → Option JsonV) (d : OpenAIToolCall)
    (ds : List OpenAIToolCall)
    (hidx : ∀ x ∈ d :: ds, x.index.getD 0 = 0)
    (n : String) (hname : specFinalName (d :: ds) = some n) (hn : n ≠ "") :
    streamYields parse
        (((d :: ds).map (fun x => StreamItem.record (singleToolCallDeltaRecord x))) ++
          [StreamItem.fin]) [] =
      [[{ functionCall := some
            { name := n,
              args := if specArgsText (d :: ds) ≠ ""
                then (parse (specArgsText (d :: ds))).getD (JsonV.obj [])
                else JsonV.obj [],
              id := specFinalId (d :: ds) } }]] := by
  rw [streamYields_records, foldl_processDelta_all d ds hidx]
  rw [finalToolCallParts_single parse _ n ((finalName_eq d ds).trans hname) hn]
  rw [finalArgs_eq d ds, finalId_eq d ds (hidx d (by simp))]

/-- Witness for Claim C3: spec Scenario C — id-only delta, then name with
a first argument fragment, then the remaining fragment — assembles the
single completed call `get_weather` with parsed arguments and the streamed
id. -/
theorem claim_C3_witness :
    streamYields parse0x
        (([d1x, d2x, d3x].map (fun x => StreamItem.record (singleToolCallDeltaRecord x))) ++
          [StreamItem.fin]) [] =
      [[{ functionCall := some fcWx }]] := by
  have h := claim_C3 parse0x d1x [d2x, d3x] (by decide) "get_weather" rfl (by decide)
  exact h.trans (by rfl)

/-- Counterexample for Claim C3 as stated: with a delta naming the call
`alpha` followed by a delta naming it `beta`, the decoder emits the name
`beta` — the last non-empty name wins, not the first as the spec says. -/
theorem claim_C3_counterexample :
    streamYields parse0x
        (([dAx, dBx].map (fun x => StreamItem.record (singleToolCallDeltaRecord x))) ++
          [StreamItem.fin]) [] =
      [[{ functionCall := some fcCx }]] ∧
    "beta" ≠ "alpha" := ⟨rfl, by decide⟩

/-- Claim C9 (corrected): each wire tool call of a complete response
becomes a function-call fragment at the same position: a best-effort JSON
parse of the arguments (a missing or empty arguments string, or a parse
failure, yields the empty object and never an error), a missing or empty
name yields the sentinel `unknown_function`, and a missing or empty id is
synthesized as `tool_<index || 0>` from the call's own `index` FIELD (not
from its position in the response, as the spec says). -/
theorem claim_C9 (parse : String → Option JsonV) (toolCalls : List OpenAIToolCall)
    (i : Nat) (hi : i < toolCalls.length) (tc : OpenAIToolCall)
    (htc : toolCalls.getD i { function := { } } = tc) :
    (convertOpenAIToolCallsToGemini parse toolCalls).length = toolCalls.length ∧
    ∃ fc : FunctionCallV,
      (convertOpenAIToolCallsToGemini parse toolCalls).getD i { } =
        { functionCall := some fc } ∧
      ((tc.function.name = none ∨ tc.function.name = some "") →
        fc.name = "unknown_function") ∧
      (∀ n, tc.function.name = some n → n ≠ "" → fc.name = n) ∧
      ((tc.function.arguments = none ∨ tc.function.arguments = some "") →
        fc.args = JsonV.obj []) ∧
      (∀ s, tc.function.arguments = some s → s ≠ "" → parse s = none →
        fc.args = JsonV.obj []) ∧
      (∀ s v, tc.function.arguments = some s → s ≠ "" → parse s = some v →
        fc.args = v) ∧
      ((tc.id = none ∨ tc.id = some "") →
        fc.id = "tool_" ++ toString (tc.index.getD 0)) ∧
      (∀ s, tc.id = some s → s ≠ "" → fc.id = s) := by
  have hlen : (convertOpenAIToolCallsToGemini parse toolCalls).length = toolCalls.length := by
    simp [convertOpenAIToolCallsToGemini]
  refine ⟨hlen, toFunctionCallV parse tc, ?_, ?_, ?_, ?_, ?_, ?_, ?_, ?_⟩
  · rw [List.getD_eq_getElem _ _ (by rw [hlen]; exact hi)]
    subst htc
    rw [List.getD_eq_getElem _ _ hi]
    simp [convertOpenAIToolCallsToGemini]
  · rintro (h | h) <;>
      simp [toFunctionCallV, jsOrString, h]
  · intro n h hn
    simp [toFunctionCallV, jsOrString, h, hn]
  · rintro (h | h) <;>
      simp [toFunctionCallV, h]
  · intro s h hs hp
    simp [toFunctionCallV, h, hs, hp]
  · intro s v h hs hp
    simp [toFunctionCallV, h, hs, hp]
  · rintro (h | h) <;>
      simp [toFunctionCallV, jsOrString, h]
  · intro s h hs
    simp [toFunctionCallV, jsOrString, h, hs]

/-- Witness for Claim C9: a call with no id, declared index 2, empty name
and unparsable arguments translates to the `unknown_function` sentinel,
empty arguments object and id `tool_2`. -/
theorem claim_C9_witness :
    (convertOpenAIToolCallsToGemini parse0x [tcX]).getD 0 { } =
      { functionCall := some fcX } := by
  obtain ⟨-, fc, hpart, h1, -, -, h4, -, h6, -⟩ :=
    claim_C9 parse0x [tcX] 0 (by decide) tcX rfl
  have hn : fc.name = "unknown_function" := h1 (Or.inr rfl)
  have ha : fc.args = JsonV.obj [] := h4 "oops" rfl (by decide) rfl
  have hid : fc.id = "tool_" ++ toString ((some 2 : Option Nat).getD 0) := h6 (Or.inl rfl)
  have hfc : fc = fcX := by
    cases fc
    simp only at hn ha hid
    rw [hn, ha, hid]
    rfl
  rw [hfc] at hpart
  exact hpart

/-- Counterexample for Claim C9 as stated: two calls with no id and no
index both receive the id `tool_0`; were the id synthesized from the
position in the response, the second would be `tool_1`. -/
theorem claim_C9_counterexample :
    convertOpenAIToolCallsToGemini parse0x [tcY, tcZ] =
      [{ functionCall := some fcYa }, { functionCall := some fcYb }] ∧
    fcYb.id ≠ "tool_1" := ⟨rfl, by decide⟩

/-! ## Optimizer lemmas for Claim C6 -/

theorem sum_map_getD {α : Type} (d : α) (f : α → Nat) :
    ∀ (l : List α),
      (l.map f).sum = ∑ i ∈ Finset.range l.length, f (l.getD i d) := by
  intro l
  induction l with
  | nil => simp
  | cons x xs ih =>
    rw [List.map_cons, List.sum_cons, ih, List.length_cons, Finset.sum_range_succ']
    simp [List.getD]
    omega

theorem estimateMessageTokens_pos (m : OpenAIMessage) :
    0 < estimateMessageTokens m := by
  unfold estimateMessageTokens
  simp only []
  omega

theorem mem_enum_facts {α : Type} (l : List α) (d : α) (x : Nat × α) (h : x ∈ l.enum) :
    x.1 < l.length ∧ l.getD x.1 d = x.2 := by
  rw [List.mem_enum_iff_getElem?] at h
  have h1 : x.1 < l.length := by
    by_contra hc
    rw [List.getElem?_eq_none (by omega)] at h
    exact Option.noConfusion h
  refine ⟨h1, ?_⟩
  rw [List.getD_eq_getElem?_getD, h]
  rfl

theorem prioritize_mem (messages : List OpenAIMessage) (p : PrioritizedItem)
    (hp : p ∈ prioritizeMessages messages) :
    p.idx < messages.length ∧ messages.getD p.idx mDummy = p.message := by
  unfold prioritizeMessages at hp
  obtain ⟨q, hq, hqp⟩ := List.mem_map.mp hp
  obtain ⟨h1, h2⟩ := mem_enum_facts messages mDummy q hq
  subst hqp
  exact ⟨h1, h2⟩

theorem pri_idx_range (messages : List OpenAIMessage) :
    (prioritizeMessages messages).map PrioritizedItem.idx =
      List.range messages.length := by
  unfold prioritizeMessages
  rw [List.map_map]
  exact List.enum_map_fst messages

theorem sysPass_structure (avail : Int) :
    ∀ (its : List PrioritizedItem) (opt : List TaggedMsg) (tot : Int),
      ∃ ex t, sysPass avail its opt tot = (opt ++ ex, t) ∧
        ex.Sublist (its.map tagOf) := by
  intro its
  induction its with
  | nil => intro opt tot; exact ⟨[], tot, by simp [sysPass], List.Sublist.refl []⟩
  | cons it its ih =>
    intro opt tot
    unfold sysPass
    by_cases hc : tot + (it.estimatedTokens : Int) ≤ avail
    · rw [if_pos hc]
      obtain ⟨ex, t, heq, hsub⟩ := ih (opt ++ [tagOf it]) (tot + (it.estimatedTokens : Int))
      refine ⟨tagOf it :: ex, t, ?_, ?_⟩
      · exact heq.trans (by rw [List.append_assoc, List.singleton_append])
      · exact hsub.cons₂ (tagOf it)
    · rw [if_neg hc]
      obtain ⟨ex, t, heq, hsub⟩ := ih opt tot
      exact ⟨ex, t, heq, hsub.cons (tagOf it)⟩

theorem mainPass_structure (avail : Int) :
    ∀ (its : List PrioritizedItem) (opt : List TaggedMsg) (tot : Int),
      ∃ ex t, mainPass avail its opt tot = (opt ++ ex, t) ∧
        (∀ x ∈ ex, (∃ it ∈ its, x = tagOf it) ∨ x.tag = none) ∧
        (ex.filterMap TaggedMsg.tag).Sublist (its.map PrioritizedItem.idx) := by
  intro its
  induction its with
  | nil =>
    intro opt tot
    exact ⟨[], tot, by simp [mainPass], by simp, by simp⟩
  | cons it its ih =>
    intro opt tot
    unfold mainPass
    by_cases hc : tot + (it.estimatedTokens : Int) ≤ avail
    · rw [if_pos hc]
      obtain ⟨ex, t, heq, hmem, hsub⟩ := ih (opt ++ [tagOf it]) (tot + (it.estimatedTokens : Int))
      refine ⟨tagOf it :: ex, t, ?_, ?_, ?_⟩
      · exact heq.trans (by rw [List.append_assoc, List.singleton_append])
      · intro x hx
        rcases List.mem_cons.mp hx with hx | hx
        · exact Or.inl ⟨it, by simp, hx⟩
        · rcases hmem x hx with ⟨it2, h2, h3⟩ | h2
          · exact Or.inl ⟨it2, by simp [h2], h3⟩
          · exact Or.inr h2
      · rw [List.filterMap_cons_some
          (show TaggedMsg.tag (tagOf it) = some it.idx from rfl)]
        exact hsub.cons₂ it.idx
    · rw [if_neg hc]
      split
      · obtain ⟨ex, t, heq, hmem, hsub⟩ := ih opt tot
        refine ⟨ex, t, heq, ?_, hsub.cons it.idx⟩
        intro x hx
        rcases hmem x hx with ⟨it2, h2, h3⟩ | h2
        · exact Or.inl ⟨it2, by simp [h2], h3⟩
        · exact Or.inr h2
      · by_cases hpos : 0 < estimateMessageTokens it.message
        · rw [if_pos hpos]
          obtain ⟨ex, t, heq, hmem, hsub⟩ :=
            ih (opt ++ [tagOf it]) (tot + (estimateMessageTokens it.message : Int))
          refine ⟨tagOf it :: ex, t, ?_, ?_, ?_⟩
          · exact heq.trans (by rw [List.append_assoc, List.singleton_append])
          · intro x hx
            rcases List.mem_cons.mp hx with hx | hx
            · exact Or.inl ⟨it, by simp, hx⟩
            · rcases hmem x hx with ⟨it2, h2, h3⟩ | h2
              · exact Or.inl ⟨it2, by simp [h2], h3⟩
              · exact Or.inr h2
          · rw [List.filterMap_cons_some
              (show TaggedMsg.tag (tagOf it) = some it.idx from rfl)]
            exact hsub.cons₂ it.idx
        · rw [if_neg hpos]
          obtain ⟨ex, t, heq, hmem, hsub⟩ := ih opt tot
          refine ⟨ex, t, heq, ?_, hsub.cons it.idx⟩
          intro x hx
          rcases hmem x hx with ⟨it2, h2, h3⟩ | h2
          · exact Or.inl ⟨it2, by simp [h2], h3⟩
          · exact Or.inr h2
      · rename_i m hm
        by_cases hpos : 0 < estimateMessageTokens m
        · rw [if_pos hpos]
          obtain ⟨ex, t, heq, hmem, hsub⟩ :=
            ih (opt ++ [⟨none, m⟩]) (tot + (estimateMessageTokens m : Int))
          refine ⟨(⟨none, m⟩ : TaggedMsg) :: ex, t, ?_, ?_, ?_⟩
          · exact heq.trans (by rw [List.append_assoc, List.singleton_append])
          · intro x hx
            rcases List.mem_cons.mp hx with hx | hx
            · exact Or.inr (by rw [hx])
            · rcases hmem x hx with ⟨it2, h2, h3⟩ | h2
              · exact Or.inl ⟨it2, by simp [h2], h3⟩
              · exact Or.inr h2
          · rw [List.filterMap_cons_none
              (show TaggedMsg.tag (⟨none, m⟩ : TaggedMsg) = none from rfl)]
            exact hsub.cons it.idx
        · rw [if_neg hpos]
          obtain ⟨ex, t, heq, hmem, hsub⟩ := ih opt tot
          refine ⟨ex, t, heq, ?_, hsub.cons it.idx⟩
          intro x hx
          rcases hmem x hx with ⟨it2, h2, h3⟩ | h2
          · exact Or.inl ⟨it2, by simp [h2], h3⟩
          · exact Or.inr h2

theorem sysPass_all (avail : Int) :
    ∀ (its : List PrioritizedItem) (opt : List TaggedMsg) (tot : Int),
      tot + ((its.map (fun it => (it.estimatedTokens : Int))).sum) ≤ avail →
      sysPass avail its opt tot =
        (opt ++ its.map tagOf,
          tot + ((its.map (fun it => (it.estimatedTokens : Int))).sum)) := by
  intro its
  induction its with
  | nil => intro opt tot h; simp [sysPass]
  | cons it its ih =>
    intro opt tot h
    have hnn : (0 : Int) ≤ (its.map (fun it => (it.estimatedTokens : Int))).sum := by
      apply List.sum_nonneg
      intro x hx
      obtain ⟨y, hy, hyx⟩ := List.mem_map.mp hx
      rw [← hyx]
      exact Int.natCast_nonneg _
    rw [List.map_cons, List.sum_cons] at h
    have hfit : tot + (it.estimatedTokens : Int) ≤ avail := by linarith
    unfold sysPass
    rw [if_pos hfit]
    refine (ih (opt ++ [tagOf it]) (tot + (it.estimatedTokens : Int)) (by linarith)).trans ?_
    rw [List.append_assoc, List.singleton_append, List.map_cons, List.map_cons, List.sum_cons, add_assoc]

theorem filterMap_tagOf : ∀ (l : List PrioritizedItem),
    (l.map tagOf).filterMap TaggedMsg.tag = l.map PrioritizedItem.idx := by
  intro l
  induction l with
  | nil => rfl
  | cons a l ih =>
    rw [List.map_cons, List.filterMap_cons_some
      (show TaggedMsg.tag (tagOf a) = some a.idx from rfl), ih, List.map_cons]

theorem filterMap_tag_length_all_some : ∀ (l : List TaggedMsg),
    (∀ t ∈ l, t.tag ≠ none) → (l.filterMap TaggedMsg.tag).length = l.length := by
  intro l
  induction l with
  | nil => intro _; rfl
  | cons t ts ih =>
    intro h
    cases ht : t.tag with
    | none => exact absurd ht (h t (by simp))
    | some i =>
      rw [List.filterMap_cons_some (show TaggedMsg.tag t = some i from ht),
        List.length_cons, List.length_cons, ih (fun x hx => h x (by simp [hx]))]

theorem sum_est_filterMap (messages : List OpenAIMessage) : ∀ (l : List TaggedMsg),
    (∀ t ∈ l, t.tag ≠ none) →
    (∀ t ∈ l, ∀ i, t.tag = some i → messages.getD i mDummy = t.msg) →
    (l.map (fun t => estimateMessageTokens t.msg)).sum =
      ((l.filterMap TaggedMsg.tag).map
        (fun i => estimateMessageTokens (messages.getD i mDummy))).sum := by
  intro l
  induction l with
  | nil => intro _ _; rfl
  | cons t ts ih =>
    intro h1 h2
    cases ht : t.tag with
    | none => exact absurd ht (h1 t (by simp))
    | some i =>
      rw [List.filterMap_cons_some (show TaggedMsg.tag t = some i from ht),
        List.map_cons, List.sum_cons, List.map_cons, List.sum_cons]
      rw [h2 t (by simp) i ht]
      rw [ih (fun x hx => h1 x (by simp [hx])) (fun x hx => h2 x (by simp [hx]))]

theorem optimize_components (model : String) (messages : List OpenAIMessage)
    (maxTokens : Int) (tools : Option (List OpenAIToolF)) (result : List TaggedMsg)
    (hok : optimizeMessages model messages maxTokens tools = .ok result) :
    ∃ ex1 ex2,
      result = List.insertionSort (fun a b : TaggedMsg => sortKey a ≤ sortKey b)
        (ex1 ++ ex2) ∧
      (∀ x ∈ ex1 ++ ex2,
        (∃ p ∈ prioritizeMessages messages, x = tagOf p) ∨ x.tag = none) ∧
      ((ex1 ++ ex2).filterMap TaggedMsg.tag).Nodup ∧
      (((((prioritizeMessages messages).filter
            (fun p => p.message.role = "system")).map
              (fun it => (it.estimatedTokens : Int))).sum ≤
          availableTokensOf model maxTokens tools) →
        ∀ p ∈ (prioritizeMessages messages).filter
            (fun p => p.message.role = "system"),
          tagOf p ∈ ex1) := by
  unfold optimizeMessages at hok
  simp only [] at hok
  by_cases hav : availableTokensOf model maxTokens tools ≤ 0
  · rw [if_pos hav] at hok
    exact absurd hok (by simp)
  · rw [if_neg hav] at hok
    obtain ⟨ex1, t1, heq1, hsub1⟩ := sysPass_structure
      (availableTokensOf model maxTokens tools)
      ((prioritizeMessages messages).filter (fun p => p.message.role = "system")) [] 0
    rw [List.nil_append] at heq1
    obtain ⟨ex2, t2, heq2, hmem2, hsub2⟩ := mainPass_structure
      (availableTokensOf model maxTokens tools)
      (List.insertionSort (fun a b : PrioritizedItem => b.priority ≤ a.priority)
        ((prioritizeMessages messages).filter (fun p => p.message.role ≠ "system")))
      ex1 t1
    rw [heq1] at hok
    simp only [heq2] at hok
    rw [Except.ok.injEq] at hok
    have hpriNodup : ((prioritizeMessages messages).map PrioritizedItem.idx).Nodup := by
      rw [pri_idx_range]
      exact List.nodup_range _
    have hsysIdx : (((prioritizeMessages messages).filter
        (fun p => p.message.role = "system")).map PrioritizedItem.idx).Sublist
        ((prioritizeMessages messages).map PrioritizedItem.idx) :=
      (List.filter_sublist _).map _
    have hnonIdx : (((prioritizeMessages messages).filter
        (fun p => p.message.role ≠ "system")).map PrioritizedItem.idx).Sublist
        ((prioritizeMessages messages).map PrioritizedItem.idx) :=
      (List.filter_sublist _).map _
    have hmainPerm : (List.insertionSort
        (fun a b : PrioritizedItem => b.priority ≤ a.priority)
        ((prioritizeMessages messages).filter
          (fun p => p.message.role ≠ "system"))).Perm
        ((prioritizeMessages messages).filter (fun p => p.message.role ≠ "system")) :=
      List.perm_insertionSort _ _
    have hfm1 : (ex1.filterMap TaggedMsg.tag).Sublist
        (((prioritizeMessages messages).filter
          (fun p => p.message.role = "system")).map PrioritizedItem.idx) := by
      have h := hsub1.filterMap TaggedMsg.tag
      rwa [filterMap_tagOf] at h
    have hfm2 : (ex2.filterMap TaggedMsg.tag).Sublist
        ((List.insertionSort (fun a b : PrioritizedItem => b.priority ≤ a.priority)
          ((prioritizeMessages messages).filter
            (fun p => p.message.role ≠ "system"))).map PrioritizedItem.idx) := hsub2
    refine ⟨ex1, ex2, hok.symm, ?_, ?_, ?_⟩
    · intro x hx
      rcases List.mem_append.mp hx with hx | hx
      · have hx1 : x ∈ ((prioritizeMessages messages).filter
            (fun p => p.message.role = "system")).map tagOf := hsub1.subset hx
        obtain ⟨p, hp, hpx⟩ := List.mem_map.mp hx1
        exact Or.inl ⟨p, List.mem_of_mem_filter hp, hpx.symm⟩
      · rcases hmem2 x hx with ⟨it, hit, hxit⟩ | h
        · have hit2 : it ∈ (prioritizeMessages messages).filter
              (fun p => p.message.role ≠ "system") := hmainPerm.subset hit
          exact Or.inl ⟨it, List.mem_of_mem_filter hit2, hxit⟩
        · exact Or.inr h
    · rw [List.filterMap_append]
      have hnd1 : (ex1.filterMap TaggedMsg.tag).Nodup :=
        (hfm1.trans hsysIdx).nodup hpriNodup
      have hnd2 : (ex2.filterMap TaggedMsg.tag).Nodup := by
        have hperm := hmainPerm.map PrioritizedItem.idx
        exact hfm2.nodup (hperm.nodup_iff.mpr (hnonIdx.nodup hpriNodup))
      refine List.Nodup.append hnd1 hnd2 ?_
      intro a ha1 ha2
      have ha1s : a ∈ ((prioritizeMessages messages).filter
          (fun p => p.message.role = "system")).map PrioritizedItem.idx :=
        hfm1.subset ha1
      have ha2n : a ∈ ((prioritizeMessages messages).filter
          (fun p => p.message.role ≠ "system")).map PrioritizedItem.idx :=
        (hmainPerm.map PrioritizedItem.idx).subset (hfm2.subset ha2)
      obtain ⟨p, hp, hpa⟩ := List.mem_map.mp ha1s
      obtain ⟨q, hq, hqa⟩ := List.mem_map.mp ha2n
      have hpm := List.mem_filter.mp hp
      have hqm := List.mem_filter.mp hq
      have hpq : p = q := List.inj_on_of_nodup_map hpriNodup hpm.1 hqm.1
        (by rw [hpa, hqa])
      have h1 := hpm.2
      have h2 := hqm.2
      rw [hpq] at h1
      simp only [decide_eq_true_eq] at h1 h2
      exact h2 h1
    · intro hsum p hp
      have hall := sysPass_all (availableTokensOf model maxTokens tools)
        ((prioritizeMessages messages).filter (fun p => p.message.role = "system"))
        [] 0 (by simpa using hsum)
      have hcomb := heq1.symm.trans hall
      rw [Prod.mk.injEq] at hcomb
      rw [hcomb.1, List.nil_append]
      exact List.mem_map_of_mem tagOf hp

/-- Claim C6 (corrected): for every successful optimizer run, (1) the
returned entries are sorted by their chronology key, so any two
UNTRUNCATED returned messages keep the input's relative order — a
truncated replacement, however, sorts with key 0 and thus to the front,
not in its chronological position as the spec says; (2) every untruncated
returned entry is the input message at its recorded position; (3) when the
system messages jointly fit the available budget, all of them are
returned; (4) when no returned message is a truncated replacement and at
least one input message was dropped, the total token estimate strictly
decreases — with truncation the total can grow, contrary to the spec. -/
theorem claim_C6 (model : String) (messages : List OpenAIMessage) (maxTokens : Int)
    (tools : Option (List OpenAIToolF)) (result : List TaggedMsg)
    (hok : optimizeMessages model messages maxTokens tools = .ok result) :
    List.Pairwise (fun a b => ∀ i j, a.tag = some i → b.tag = some j → i ≤ j)
      result ∧
    (∀ t ∈ result, ∀ i, t.tag = some i →
      i < messages.length ∧ messages.getD i mDummy = t.msg) ∧
    (((((prioritizeMessages messages).filter
        (fun p => p.message.role = "system")).map
          (fun it => (it.estimatedTokens : Int))).sum ≤
        availableTokensOf model maxTokens tools) →
      ∀ p ∈ (prioritizeMessages messages).filter
          (fun p => p.message.role = "system"),
        tagOf p ∈ result) ∧
    ((∀ t ∈ result, t.tag ≠ none) → result.length < messages.length →
      (result.map (fun t => estimateMessageTokens t.msg)).sum <
        (messages.map estimateMessageTokens).sum) := by
  obtain ⟨ex1, ex2, hres, hprov, hnd, hfit⟩ :=
    optimize_components model messages maxTokens tools result hok
  have hperm : result.Perm (ex1 ++ ex2) := by
    rw [hres]
    exact List.perm_insertionSort _ _
  have hprovR : ∀ t ∈ result, ∀ i, t.tag = some i →
      i < messages.length ∧ messages.getD i mDummy = t.msg := by
    intro t ht i hi
    rcases hprov t (hperm.subset ht) with ⟨p, hp, htp⟩ | hnone
    · subst htp
      have hpi : p.idx = i := by
        have h := hi
        simp only [tagOf, Option.some.injEq] at h
        exact h
      obtain ⟨h1, h2⟩ := prioritize_mem messages p hp
      rw [← hpi]
      exact ⟨h1, h2⟩
    · rw [hnone] at hi
      exact Option.noConfusion hi
  refine ⟨?_, hprovR, ?_, ?_⟩
  · haveI htot : IsTotal TaggedMsg (fun a b => sortKey a ≤ sortKey b) :=
      ⟨fun a b => Nat.le_total _ _⟩
    haveI htr : IsTrans TaggedMsg (fun a b => sortKey a ≤ sortKey b) :=
      ⟨fun a b c hab hbc => Nat.le_trans hab hbc⟩
    have hs : List.Sorted (fun a b => sortKey a ≤ sortKey b) result := by
      rw [hres]
      exact List.sorted_insertionSort _ _
    refine List.Pairwise.imp ?_ hs
    intro a b h i j hi hj
    simp only [sortKey, hi, hj, Option.getD_some] at h
    exact h
  · intro hsum p hp
    exact hperm.symm.subset (List.mem_append_left ex2 (hfit hsum p hp))
  · intro hall hlen
    have hS : (result.filterMap TaggedMsg.tag).Nodup :=
      (hperm.filterMap TaggedMsg.tag).nodup_iff.mpr hnd
    have hSlen : (result.filterMap TaggedMsg.tag).length = result.length :=
      filterMap_tag_length_all_some result hall
    have hmemS : ∀ i ∈ result.filterMap TaggedMsg.tag, i < messages.length := by
      intro i hi
      obtain ⟨t, ht, hti⟩ := List.mem_filterMap.mp hi
      exact (hprovR t ht i hti).1
    rw [sum_est_filterMap messages result hall
      (fun t ht i hti => (hprovR t ht i hti).2)]
    rw [← List.sum_toFinset _ hS]
    rw [sum_map_getD mDummy estimateMessageTokens messages]
    have hsubF : (result.filterMap TaggedMsg.tag).toFinset ⊆
        Finset.range messages.length := by
      intro i hi
      rw [List.mem_toFinset] at hi
      exact Finset.mem_range.mpr (hmemS i hi)
    have hcard : (result.filterMap TaggedMsg.tag).toFinset.card <
        (Finset.range messages.length).card := by
      rw [List.toFinset_card_of_nodup hS, Finset.card_range, hSlen]
      exact hlen
    obtain ⟨j, hj1, hj2⟩ := Finset.exists_of_ssubset
      (hsubF.ssubset_of_ne (fun he => absurd (he ▸ hcard) (lt_irrefl _)))
    exact Finset.sum_lt_sum_of_subset hsubF hj1 hj2 (estimateMessageTokens_pos _)
      (fun k _ _ => Nat.zero_le _)

set_option maxRecDepth 100000 in
/-- Witness for Claim C6: a small system and user message that jointly
fit are both returned, in order, untouched. -/
theorem claim_C6_witness :
    optimizeMessages "nope" [sysW, usrW] 2000 none =
      .ok [⟨some 0, sysW⟩, ⟨some 1, usrW⟩] ∧
    tagOf ⟨0, sysW, 1000, estimateMessageTokens sysW⟩ ∈
      ([⟨some 0, sysW⟩, ⟨some 1, usrW⟩] : List TaggedMsg) := by
  have hok : optimizeMessages "nope" [sysW, usrW] 2000 none =
      .ok [⟨some 0, sysW⟩, ⟨some 1, usrW⟩] := by rfl
  obtain ⟨-, -, h3, -⟩ := claim_C6 "nope" [sysW, usrW] 2000 none _ hok
  exact ⟨hok, h3 (by decide) ⟨0, sysW, 1000, estimateMessageTokens sysW⟩ (by decide)⟩

set_option maxRecDepth 100000 in
/-- Counterexample for Claim C6 as stated: first run — the truncated
replacement of the position-1 message is returned BEFORE the position-0
message, breaking chronological order; second run — a message with a tool
call is truncated into a replacement whose token estimate is LARGER than
the original's, so the total estimate grows instead of strictly
decreasing. -/
theorem claim_C6_counterexample :
    optimizeMessages "nope" [c6msgHi, c6msgB] 1060 none =
      .ok [⟨none, c6truncB⟩, ⟨some 0, c6msgHi⟩] ∧
    truncateMessage c6msgB 60 = some c6truncB ∧
    optimizeMessages "nope" [c6msgB2] 1043 none = .ok [⟨none, c6truncB2⟩] ∧
    truncateMessage c6msgB2 43 = some c6truncB2 ∧
    estimateMessageTokens c6msgB2 < estimateMessageTokens c6truncB2 :=
  ⟨rfl, rfl, rfl, rfl, by decide⟩

end GeminiSpec
